import Mathlib

/-!
Verification of the internal-coordinate engine (bond lengths, bond angles,
dihedral angles and their analytic derivatives) of the `fast_internal` module.

The development shallowly embeds the module over the real numbers:

* length-3 vectors are functions `Fin 3 → ℝ`, 3x3 matrices are
  `Fin 3 → Fin 3 → ℝ`;
* a coordinate frame is a `List Vec3`; row access follows the Python/numpy
  convention of the source (negative indices wrap once, anything else out of
  range is an index error);
* every evaluator returns `Except Err EvalOut`, with the `raise` statements of
  the source mapped to the error kinds of the specification, and the dense
  output arrays modelled as total functions from atom indices that are zero
  away from the written entries, exactly mirroring the sequence of writes
  performed by the source;
* the floating-point doubles of the source are idealised as real numbers, so
  results about values/derivatives are exact-arithmetic statements; `sqrt`,
  `acos`, `cos`, `sin` are the corresponding real functions, and the C
  `atan2(y, x)` is modelled as the argument of the complex number `x + y*i`,
  which obeys the same quadrant conventions and lands in `(-pi, pi]`.
-/

namespace FastInternal

noncomputable section

/-- A length-3 vector of reals (one atom position, or one Jacobian row). -/
abbrev Vec3 := Fin 3 → ℝ

/-- A 3x3 real matrix (one Hessian block). -/
abbrev Mat3 := Fin 3 → Fin 3 → ℝ

/-- Build a length-3 vector from its components. -/
def mk3 (a b c : ℝ) : Vec3 := fun i => if i = 0 then a else if i = 1 then b else c

/-- Componentwise division of a vector by a scalar (numpy `v / c`). -/
def sdiv (v : Vec3) (c : ℝ) : Vec3 := fun i => v i / c

/-- Componentwise multiplication of a vector by a scalar (numpy `v * c`). -/
def smul3 (v : Vec3) (c : ℝ) : Vec3 := fun i => v i * c

/-- Entrywise division of a matrix by a scalar (numpy `M / c`). -/
def mdiv (M : Mat3) (c : ℝ) : Mat3 := fun i j => M i j / c

/-- The 3x3 identity matrix (numpy `np.eye(3)`). -/
def eye : Mat3 := fun i j => if i = j then 1 else 0

/-- `norm3` of the source: Euclidean norm of a length-3 vector. -/
def norm3 (v : Vec3) : ℝ := Real.sqrt (v 0 * v 0 + v 1 * v 1 + v 2 * v 2)

/-- `dot3` of the source: dot product of two length-3 vectors. -/
def dot3 (v1 v2 : Vec3) : ℝ := v1 0 * v2 0 + v1 1 * v2 1 + v1 2 * v2 2

/-- `cross3` of the source: cross product of two length-3 vectors. -/
def cross3 (a b : Vec3) : Vec3 :=
  mk3 (a 1 * b 2 - a 2 * b 1) (a 2 * b 0 - a 0 * b 2) (a 0 * b 1 - a 1 * b 0)

/-- `outer3` of the source: outer product of two length-3 vectors. -/
def outer3 (v1 v2 : Vec3) : Mat3 := fun i j => v1 i * v2 j

/-- `outer3_minus_eye` of the source: outer product minus the identity. -/
def outer3_minus_eye (v1 v2 : Vec3) : Mat3 :=
  fun i j => v1 i * v2 j - if i = j then 1 else 0

/-- `sym_outer3` of the source: symmetrized outer product `v1⊗v2 + v2⊗v1`. -/
def sym_outer3 (v1 v2 : Vec3) : Mat3 := fun i j => v1 i * v2 j + v1 j * v2 i

/-- `splay3` of the source: the antisymmetric matrix with the source's exact
(asymmetric) scale factors. -/
def splay3 (v : Vec3) : Mat3 :=
  fun i j =>
    if i = 0 ∧ j = 1 then -(v 2) / 2
    else if i = 1 ∧ j = 0 then v 2 / 2
    else if i = 0 ∧ j = 2 then -(v 1) / 4
    else if i = 2 ∧ j = 0 then v 1 / 4
    else if i = 1 ∧ j = 2 then -(v 0) / 2
    else if i = 2 ∧ j = 1 then v 0 / 2
    else 0

/-- `sign3` of the source: `1` if `i == j`, else `-1` if `i == k`, else `0`;
the `i == j` comparison is made first. -/
def sign3 (i j k : ℤ) : ℤ := if i = j then 1 else if i = k then -1 else 0

/-- `sign6` of the source: product of two `sign3` selectors. -/
def sign6 (a b c i j k : ℤ) : ℤ := sign3 a b c * sign3 i j k

/-- `kron` of the source: Kronecker delta on integer indices. -/
def kron (i j : ℤ) : ℤ := if i = j then 1 else 0

/-- Error kinds of the specification. `invalidShape` (wrong column counts)
cannot arise in this typed embedding; `invalidArgument` models the
`ValueError` on a derivative order outside {0,1,2}; `degenerateGeometry`
models the `ValueError` raised by the angle evaluator on a quasi-linear
triple; `indexError` models the `IndexError` of a row access out of range. -/
inductive Err where
  | invalidShape
  | invalidArgument
  | degenerateGeometry
  | indexError
deriving DecidableEq, Repr

/-- Row access `xyz[m]` on an `(n_atoms, 3)` array with numpy semantics:
a negative index is offset once by `n_atoms`; the result must lie in
`[0, n_atoms)` or the access fails. -/
def getRow (xyz : List Vec3) (m : ℤ) : Except Err Vec3 :=
  let eff := if m < 0 then m + xyz.length else m
  if h : 0 ≤ eff ∧ eff < xyz.length then
    .ok (xyz.get ⟨eff.toNat, by omega⟩)
  else
    .error .indexError

/-- The per-feature slice of the outputs of one evaluator call: the value, and
(for the requested derivative orders) the Jacobian rows indexed by atom and the
Hessian blocks indexed by a pair of atoms. -/
structure FeatOut where
  value : ℝ
  jac : Option (ℤ → Vec3)
  hess : Option (ℤ → ℤ → Mat3)

/-- The outputs of one evaluator call: the value tensor, and, when requested,
the Jacobian and Hessian tensors (per-feature lists). -/
structure EvalOut where
  values : List ℝ
  jacobian : Option (List (ℤ → Vec3))
  hessian : Option (List (ℤ → ℤ → Mat3))

/-- Write one row of a (zero-initialised) Jacobian slab:
`jacobian[i, a, :] = v`. -/
def updRow (J : ℤ → Vec3) (a : ℤ) (v : Vec3) : ℤ → Vec3 :=
  fun b => if b = a then v else J b

/-- Write one block of a Hessian slab: `hessian[i, a, :, b, :] = M`. -/
def updBlk (H : ℤ → ℤ → Mat3) (a b : ℤ) (M : Mat3) : ℤ → ℤ → Mat3 :=
  fun a' b' => if a' = a ∧ b' = b then M else H a' b'

/-- The guarded accumulation `if s != 0: hessian[i, a, :, b, :] += s * T`
of the angle evaluator. -/
def addBlkIf (H : ℤ → ℤ → Mat3) (a b : ℤ) (s : ℤ) (T : Mat3) : ℤ → ℤ → Mat3 :=
  if s ≠ 0 then updBlk H a b (H a b + (s : ℝ) • T) else H

/-- The C library two-argument arctangent `atan2(y, x)`, modelled as the
argument of the complex number `x + y*i`: same quadrant conventions, value in
`(-pi, pi]`. -/
def atan2 (y x : ℝ) : ℝ := Complex.arg ⟨x, y⟩

/-- Loop body of `bond_lengths` for one pair `(m, n)`, mirroring the source
statement by statement (value; then Jacobian rows at `m`, `n`; then the four
Hessian blocks in source order). -/
def bondFeature (xyz : List Vec3) (deriv : ℤ) (m n : ℤ) : Except Err FeatOut := do
  let xm ← getRow xyz m
  let xn ← getRow xyz n
  let u := xm - xn
  let norm := norm3 u
  if 1 ≤ deriv then
    let uhat := sdiv u norm
    let jac := updRow (updRow (fun _ => 0) m uhat) n (-uhat)
    if deriv = 2 then
      let hterm0 := mdiv (outer3_minus_eye uhat uhat) norm
      let hess :=
        updBlk (updBlk (updBlk (updBlk (fun _ _ => 0) m n hterm0) m m (-hterm0))
          n m hterm0) n n (-hterm0)
      return ⟨norm, some jac, some hess⟩
    else
      return ⟨norm, some jac, none⟩
  else
    return ⟨norm, none, none⟩

/-- Hessian assembly loop of `bond_angles`: the base term
`-(cos/sin) * outer(jacobian[i], jacobian[i])` written over the whole slab,
then for `a` and `b` ranging over `[m, n, o]` the four guarded `sign6`-weighted
accumulations, in source order. -/
def angleHessian (m o n : ℤ) (jac : ℤ → Vec3) (cosA sinA : ℝ)
    (t1 t2 t3 t4 : Mat3) : ℤ → ℤ → Mat3 :=
  (List.product [m, n, o] [m, n, o]).foldl
    (fun H ab =>
      addBlkIf (addBlkIf (addBlkIf (addBlkIf H ab.1 ab.2 (sign6 ab.1 m o ab.2 m o) t1)
        ab.1 ab.2 (sign6 ab.1 n o ab.2 n o) t2)
        ab.1 ab.2 (sign6 ab.1 m o ab.2 n o) t3)
        ab.1 ab.2 (sign6 ab.1 n o ab.2 m o) t4)
    (fun a b i j => -(cosA / sinA) * (jac a i * jac b j))

/-- Loop body of `bond_angles` for one triple `(m, o, n)`, mirroring the
source: value via `acos`; degeneracy test on the normalised bond vectors at
first order; Jacobian rows written at `m`, `n`, `o`; Hessian via
`angleHessian`. -/
def angleFeature (xyz : List Vec3) (deriv : ℤ) (m o n : ℤ) : Except Err FeatOut := do
  let xm ← getRow xyz m
  let xo ← getRow xyz o
  let xn ← getRow xyz n
  let u' := xm - xo
  let v' := xn - xo
  let u_norm := norm3 u'
  let v_norm := norm3 v'
  let u := sdiv u' u_norm
  let v := sdiv v' v_norm
  let angle := Real.arccos (dot3 u' v' / (u_norm * v_norm))
  if 1 ≤ deriv then
    if norm3 (u + v) < 1e-10 ∨ norm3 (u - v) < 1e-10 then
      throw .degenerateGeometry
    else
      let w' := cross3 u v
      let w := sdiv w' (norm3 w')
      let jt0 := sdiv (cross3 u w) u_norm
      let jt1 := sdiv (cross3 w v) v_norm
      let jac := updRow (updRow (updRow (fun _ => 0) m jt0) n jt1) o (-(jt0 + jt1))
      if deriv = 2 then
        let cosA := Real.cos angle
        let sinA := Real.sin angle
        let uv := outer3 u v
        let uu := outer3 u u
        let vv := outer3 v v
        let t1 : Mat3 := fun i j =>
          (uv i j + uv j i + (-3 * uu i j + eye i j) * cosA) / (u_norm ^ 2 * sinA)
        let t2 : Mat3 := fun i j =>
          (uv i j + uv j i + (-3 * vv i j + eye i j) * cosA) / (v_norm ^ 2 * sinA)
        let t3 : Mat3 := fun i j =>
          (uu i j + vv i j - uv i j * cosA - eye i j) / (u_norm * v_norm * sinA)
        let t4 : Mat3 := fun i j =>
          (uu i j + vv i j - uv j i * cosA - eye i j) / (u_norm * v_norm * sinA)
        let hess := angleHessian m o n jac cosA sinA t1 t2 t3 t4
        return ⟨angle, some jac, some hess⟩
      else
        return ⟨angle, some jac, none⟩
  else
    return ⟨angle, none, none⟩

/-- The eight integer coefficients `m1`..`m8` and the accumulated `factor`
matrix of the dihedral Hessian loop body, for one atom pair `(a, b)`. Note
that, exactly as in the source, the `m8` contribution reuses `ht7` (the
computed `ht8` is never used). -/
def dihedralFactor (m o p n : ℤ) (ht1 ht2 ht3 ht4 ht5 ht6 ht7 ht8 : Mat3)
    (a b : ℤ) : Mat3 :=
  let m1 := sign6 a m o b m o
  let m2 := sign6 a n p b n p
  let m3 := sign6 a m o b o p + sign6 a p o b o p
  let m4 := sign6 a n p b p o + sign6 a p o b n o
  let m5 := sign6 a o p b p o
  let m6 := sign6 a o p b o p
  let m7 := (1 - kron a b) * (sign6 a m o b o p + sign6 a p o b o m)
  let m8 := (1 - kron a b) * (sign6 a n o b o p + sign6 a p o b o m)
  (if m1 ≠ 0 then (m1 : ℝ) • ht1 else 0) + (if m2 ≠ 0 then (m2 : ℝ) • ht2 else 0) +
  (if m3 ≠ 0 then (m3 : ℝ) • ht3 else 0) + (if m4 ≠ 0 then (m4 : ℝ) • ht4 else 0) +
  (if m5 ≠ 0 then (m5 : ℝ) • ht5 else 0) + (if m6 ≠ 0 then (m6 : ℝ) • ht6 else 0) +
  (if m7 ≠ 0 then (m7 : ℝ) • ht7 else 0) + (if m8 ≠ 0 then (m8 : ℝ) • ht7 else 0)

/-- Hessian assembly loop of `dihedral_angles`: for `a` and `b` ranging over
`[m, n, o, p]`, the block `(a, b)` of the zero-initialised slab is overwritten
with `dihedralFactor`. -/
def dihedralHessian (m o p n : ℤ) (ht1 ht2 ht3 ht4 ht5 ht6 ht7 ht8 : Mat3) :
    ℤ → ℤ → Mat3 :=
  (List.product [m, n, o, p] [m, n, o, p]).foldl
    (fun H ab => updBlk H ab.1 ab.2 (dihedralFactor m o p n ht1 ht2 ht3 ht4 ht5 ht6 ht7 ht8 ab.1 ab.2))
    (fun _ _ => 0)

/-- Loop body of `dihedral_angles` for one quadruple `(m, o, p, n)`, mirroring
the source: signed value via `atan2` on the non-normalised vectors; Jacobian
terms from the normalised cross products; eight master tensors and the
assembly loop at second order. -/
def dihedralFeature (xyz : List Vec3) (deriv : ℤ) (m o p n : ℤ) :
    Except Err FeatOut := do
  let xm ← getRow xyz m
  let xo ← getRow xyz o
  let xp ← getRow xyz p
  let xn ← getRow xyz n
  let u' := xm - xo
  let v' := xn - xp
  let w' := xp - xo
  let u_norm := norm3 u'
  let v_norm := norm3 v'
  let w_norm := norm3 w'
  let u := sdiv u' u_norm
  let v := sdiv v' v_norm
  let w := sdiv w' w_norm
  let dot_uw := dot3 u w
  let dot_vw := dot3 v w
  let dot_uw2 := dot_uw * dot_uw
  let dot_vw2 := dot_vw * dot_vw
  let cvw' := cross3 v' w'
  let cuw' := cross3 u' w'
  let value := atan2 (dot3 u' cvw' * w_norm) (dot3 cvw' cuw')
  if 1 ≤ deriv then
    let cross_vw := sdiv cvw' (v_norm * w_norm)
    let cross_uw := sdiv cuw' (u_norm * w_norm)
    let term1 := sdiv cross_uw (u_norm * (1 - dot_uw2))
    let term2 := sdiv cross_vw (v_norm * (1 - dot_vw2))
    let term3 := sdiv (smul3 cross_uw dot_uw) (w_norm * (1 - dot_uw2))
    let term4 := sdiv (smul3 (-cross_vw) dot_vw) (w_norm * (1 - dot_vw2))
    let jac :=
      updRow (updRow (updRow (updRow (fun _ => 0) m term1) n (-term2))
        o (-term1 + term3 - term4)) p (term2 - term3 + term4)
    if deriv = 2 then
      let sin4_u := (1 - dot_uw2) * (1 - dot_uw2)
      let sin4_v := (1 - dot_vw2) * (1 - dot_vw2)
      let ht1 := mdiv (sym_outer3 cross_uw (smul3 w dot_uw - u)) (u_norm * u_norm * sin4_u)
      let ht2 := mdiv (sym_outer3 cross_vw (smul3 w dot_vw - v)) (v_norm * v_norm * sin4_v)
      let ht3 := mdiv (sym_outer3 cross_uw
        (fun i => w i - 2 * u i * dot_uw + w i * dot_uw2)) (2 * u_norm * w_norm * sin4_u)
      let ht4 := mdiv (sym_outer3 cross_vw
        (fun i => w i - 2 * u i * dot_vw + w i * dot_vw2)) (2 * v_norm * w_norm * sin4_v)
      let ht5 := mdiv (sym_outer3 cross_uw
        (fun i => u i + u i * dot_uw2 - w i * (3 * dot_uw + dot_uw2))) (2 * w_norm * w_norm * sin4_u)
      let ht6 := mdiv (sym_outer3 cross_vw
        (fun i => v i + v i * dot_vw2 - w i * (3 * dot_vw + dot_uw2))) (2 * w_norm * w_norm * sin4_v)
      let ht7 := splay3 (sdiv (smul3 w dot_uw - u) (u_norm * w_norm * (1 - dot_uw2)))
      let ht8 := splay3 (sdiv (-(smul3 w dot_vw) - v) (v_norm * w_norm * (1 - dot_vw2)))
      let hess := dihedralHessian m o p n ht1 ht2 ht3 ht4 ht5 ht6 ht7 ht8
      return ⟨value, some jac, some hess⟩
    else
      return ⟨value, some jac, none⟩
  else
    return ⟨value, none, none⟩

/-- `bond_lengths` of the source: derivative-order check, then the per-pair
loop; outputs are assembled per requested order. -/
def bond_lengths (xyz : List Vec3) (ibonds : List (ℤ × ℤ)) (deriv : ℤ) :
    Except Err EvalOut := do
  if ¬(deriv = 0 ∨ deriv = 1 ∨ deriv = 2) then
    throw .invalidArgument
  let outs ← ibonds.mapM (fun t => bondFeature xyz deriv t.1 t.2)
  return { values := outs.map (·.value)
         , jacobian := if 1 ≤ deriv then some (outs.map (fun fo => fo.jac.getD (fun _ => 0))) else none
         , hessian := if deriv = 2 then some (outs.map (fun fo => fo.hess.getD (fun _ _ => 0))) else none }

/-- `bond_angles` of the source: derivative-order check, then the per-triple
loop; outputs are assembled per requested order. -/
def bond_angles (xyz : List Vec3) (iangles : List (ℤ × ℤ × ℤ)) (deriv : ℤ) :
    Except Err EvalOut := do
  if ¬(deriv = 0 ∨ deriv = 1 ∨ deriv = 2) then
    throw .invalidArgument
  let outs ← iangles.mapM (fun t => angleFeature xyz deriv t.1 t.2.1 t.2.2)
  return { values := outs.map (·.value)
         , jacobian := if 1 ≤ deriv then some (outs.map (fun fo => fo.jac.getD (fun _ => 0))) else none
         , hessian := if deriv = 2 then some (outs.map (fun fo => fo.hess.getD (fun _ _ => 0))) else none }

/-- `dihedral_angles` of the source: derivative-order check, then the
per-quadruple loop; outputs are assembled per requested order. -/
def dihedral_angles (xyz : List Vec3) (idihedrals : List (ℤ × ℤ × ℤ × ℤ)) (deriv : ℤ) :
    Except Err EvalOut := do
  if ¬(deriv = 0 ∨ deriv = 1 ∨ deriv = 2) then
    throw .invalidArgument
  let outs ← idihedrals.mapM (fun t => dihedralFeature xyz deriv t.1 t.2.1 t.2.2.1 t.2.2.2)
  return { values := outs.map (·.value)
         , jacobian := if 1 ≤ deriv then some (outs.map (fun fo => fo.jac.getD (fun _ => 0))) else none
         , hessian := if deriv = 2 then some (outs.map (fun fo => fo.hess.getD (fun _ _ => 0))) else none }

/-- A call succeeded (no exception was raised). -/
def isOk {α : Type} (e : Except Err α) : Prop := ∃ a, e = .ok a

/-- Value of feature `f` of a successful call (0 on error or out of range). -/
def valAt (e : Except Err EvalOut) (f : ℕ) : ℝ :=
  match e with
  | .ok out => out.values.getD f 0
  | .error _ => 0

/-- Jacobian slab of feature `f` of a successful call. -/
def jacAt (e : Except Err EvalOut) (f : ℕ) : ℤ → Vec3 :=
  match e with
  | .ok out => (out.jacobian.getD []).getD f (fun _ => 0)
  | .error _ => fun _ => 0

/-- Hessian slab of feature `f` of a successful call. -/
def hessAt (e : Except Err EvalOut) (f : ℕ) : ℤ → ℤ → Mat3 :=
  match e with
  | .ok out => (out.hessian.getD []).getD f (fun _ _ => 0)
  | .error _ => fun _ _ => 0

/-- Example frame: two atoms one unit apart (a well-formed bond). -/
def exFrame2 : List Vec3 := [mk3 0 0 0, mk3 1 0 0]

/-- Example frame: two coincident atoms (a degenerate bond). -/
def exFrameC : List Vec3 := [mk3 0 0 0, mk3 0 0 0]

/-- Example frame: a right angle at the middle atom. -/
def exFrame3 : List Vec3 := [mk3 1 0 0, mk3 0 0 0, mk3 0 1 0]

/-- Example frame: three collinear atoms (a degenerate angle). -/
def exFrame3L : List Vec3 := [mk3 0 0 0, mk3 1 0 0, mk3 2 0 0]

/-- Example frame: the right angle of `exFrame3` plus one extra atom, so an
atom index outside the feature tuple is still in range. -/
def exFrame3b : List Vec3 := [mk3 1 0 0, mk3 0 0 0, mk3 0 1 0, mk3 0 0 1]

/-- Example frame: a proper dihedral `m=(1,0,0), o=0, p=(0,0,1), n=(0,1,1)`
with all bond lengths 1 and right angles everywhere. -/
def exFrame4 : List Vec3 := [mk3 1 0 0, mk3 0 0 0, mk3 0 0 1, mk3 0 1 1]

/-- Example frame: the dihedral of `exFrame4` plus one extra atom, so an atom
index outside the feature tuple is still in range. -/
def exFrame5 : List Vec3 := [mk3 1 0 0, mk3 0 0 0, mk3 0 0 1, mk3 0 1 1, mk3 1 1 1]

/-! ### Infrastructure lemmas -/

@[simp]
theorem bind_ok {α β : Type} (a : α) (f : α → Except Err β) :
    (Except.ok a >>= f) = f a := rfl

@[simp]
theorem bind_error {α β : Type} (e : Err) (f : α → Except Err β) :
    ((Except.error e : Except Err α) >>= f) = Except.error e := rfl

@[simp]
theorem pure_eq_ok {α : Type} (a : α) : (pure a : Except Err α) = Except.ok a := rfl

@[simp]
theorem mk3_zero (a b c : ℝ) : mk3 a b c 0 = a := rfl

@[simp]
theorem mk3_one (a b c : ℝ) : mk3 a b c 1 = b := rfl

@[simp]
theorem mk3_two (a b c : ℝ) : mk3 a b c 2 = c := rfl

theorem fin3_cases (i : Fin 3) : i = 0 ∨ i = 1 ∨ i = 2 := by
  revert i; decide

theorem vec3_ext {v w : Vec3} (h0 : v 0 = w 0) (h1 : v 1 = w 1) (h2 : v 2 = w 2) :
    v = w := by
  funext i
  rcases fin3_cases i with h | h | h <;> subst h <;> assumption

theorem getRow_ok {xyz : List Vec3} {m : ℤ} (h0 : 0 ≤ m) (h1 : m < xyz.length) :
    getRow xyz m = .ok (xyz.get ⟨m.toNat, by omega⟩) := by
  have hm : ¬ m < 0 := not_lt.2 h0
  simp only [getRow, hm, if_false]
  rw [dif_pos ⟨h0, h1⟩]

theorem getRow_wrap {xyz : List Vec3} {m : ℤ} (h : m < 0)
    (h2 : -(xyz.length : ℤ) ≤ m) :
    getRow xyz m = getRow xyz (m + xyz.length) := by
  have hB : ¬ (m + (xyz.length : ℤ)) < 0 := by omega
  simp only [getRow, h, if_true, hB, if_false]

theorem getRow_oob_high {xyz : List Vec3} {m : ℤ} (h : (xyz.length : ℤ) ≤ m) :
    getRow xyz m = .error .indexError := by
  have hm : ¬ m < 0 := by omega
  simp only [getRow, hm, if_false]
  rw [dif_neg (by omega)]

theorem getRow_oob_low {xyz : List Vec3} {m : ℤ} (h : m + (xyz.length : ℤ) < 0) :
    getRow xyz m = .error .indexError := by
  have hm : m < 0 := by omega
  simp only [getRow, hm, if_true]
  rw [dif_neg (by omega)]

theorem getRow_ok_inv {xyz : List Vec3} {m : ℤ} {xm : Vec3}
    (h : getRow xyz m = .ok xm) : -(xyz.length : ℤ) ≤ m ∧ m < xyz.length := by
  by_contra hcon
  rcases not_and_or.1 hcon with h' | h'
  · rw [getRow_oob_low (by omega)] at h
    exact absurd h (by simp)
  · rw [getRow_oob_high (by omega)] at h
    exact absurd h (by simp)

theorem mapM_ok_length {α β : Type} {f : α → Except Err β} :
    ∀ {l : List α} {l' : List β}, l.mapM f = .ok l' → l'.length = l.length := by
  intro l
  induction l with
  | nil =>
    intro l' h
    rw [List.mapM_nil] at h
    simp only [pure_eq_ok, Except.ok.injEq] at h
    simp [← h]
  | cons a as ih =>
    intro l' h
    rw [List.mapM_cons] at h
    cases hfa : f a with
    | error e => rw [hfa] at h; simp at h
    | ok b =>
      rw [hfa] at h
      cases hfl : as.mapM f with
      | error e => rw [hfl] at h; simp at h
      | ok bs =>
        rw [hfl] at h
        simp at h
        simp [← h, ih hfl]

theorem mapM_ok_getD {α β : Type} {f : α → Except Err β} (d : α) (d' : β) :
    ∀ {l : List α} {l' : List β}, l.mapM f = .ok l' →
      ∀ i : ℕ, i < l.length → f (l.getD i d) = .ok (l'.getD i d') := by
  intro l
  induction l with
  | nil => intro l' _ i hi; simp at hi
  | cons a as ih =>
    intro l' h i hi
    rw [List.mapM_cons] at h
    cases hfa : f a with
    | error e => rw [hfa] at h; simp at h
    | ok b =>
      rw [hfa] at h
      cases hfl : as.mapM f with
      | error e => rw [hfl] at h; simp at h
      | ok bs =>
        rw [hfl] at h
        simp at h
        cases i with
        | zero => simpa [← h] using hfa
        | succ k =>
          have hk : k < as.length := by simpa using hi
          simpa [← h] using ih hfl k hk

@[simp]
theorem updRow_apply (J : ℤ → Vec3) (a : ℤ) (v : Vec3) (b : ℤ) :
    updRow J a v b = if b = a then v else J b := rfl

@[simp]
theorem updBlk_apply (H : ℤ → ℤ → Mat3) (a b : ℤ) (M : Mat3) (a' b' : ℤ) :
    updBlk H a b M a' b' = if a' = a ∧ b' = b then M else H a' b' := rfl

theorem addBlkIf_apply (H : ℤ → ℤ → Mat3) (a b : ℤ) (s : ℤ) (T : Mat3) (a' b' : ℤ) :
    addBlkIf H a b s T a' b' =
      if a' = a ∧ b' = b then H a' b' + (s : ℝ) • T else H a' b' := by
  unfold addBlkIf updBlk
  by_cases hs : s = 0
  · simp [hs]
  · rw [if_pos hs]
    by_cases h : a' = a ∧ b' = b
    · obtain ⟨h1, h2⟩ := h
      subst h1; subst h2
      simp
    · simp [h]

theorem product_eq_sprod {α β : Type} (l₁ : List α) (l₂ : List β) :
    List.product l₁ l₂ = l₁ ×ˢ l₂ := rfl

theorem foldl_addBlocks (c : ℤ × ℤ → Mat3) :
    ∀ (l : List (ℤ × ℤ)) (H0 : ℤ → ℤ → Mat3) (a b : ℤ), l.Nodup →
      (l.foldl (fun H p => fun a' b' =>
          if a' = p.1 ∧ b' = p.2 then H a' b' + c p else H a' b') H0) a b
        = H0 a b + if (a, b) ∈ l then c (a, b) else 0 := by
  intro l
  induction l with
  | nil => intro H0 a b _; simp
  | cons p ps ih =>
    rintro H0 a b hnd
    rw [List.foldl_cons, ih _ a b (List.nodup_cons.1 hnd).2]
    by_cases hab : a = p.1 ∧ b = p.2
    · obtain ⟨h1, h2⟩ := hab
      have hp : p = (a, b) := by rw [Prod.ext_iff]; exact ⟨h1.symm, h2.symm⟩
      subst hp
      have hmem : (a, b) ∉ ps := (List.nodup_cons.1 hnd).1
      simp [hmem]
    · have hne : (a, b) ≠ p := by
        intro hcon; exact hab ⟨congrArg Prod.fst hcon, congrArg Prod.snd hcon⟩
      rw [if_neg hab]
      simp only [List.mem_cons]
      by_cases hmem : (a, b) ∈ ps
      · simp [hmem]
      · simp [hmem, hne]

theorem foldl_addBlocks_notmem (c : ℤ × ℤ → Mat3) :
    ∀ (l : List (ℤ × ℤ)) (H0 : ℤ → ℤ → Mat3) (a b : ℤ), (a, b) ∉ l →
      (l.foldl (fun H p => fun a' b' =>
          if a' = p.1 ∧ b' = p.2 then H a' b' + c p else H a' b') H0) a b = H0 a b := by
  intro l
  induction l with
  | nil => intro H0 a b _; simp
  | cons p ps ih =>
    intro H0 a b hmem
    rw [List.mem_cons, not_or] at hmem
    rw [List.foldl_cons, ih _ a b hmem.2]
    have : ¬(a = p.1 ∧ b = p.2) := by
      intro hcon
      exact hmem.1 (by rw [Prod.ext_iff]; exact hcon)
    simp [this]

theorem foldl_setBlocks (c : ℤ × ℤ → Mat3) :
    ∀ (l : List (ℤ × ℤ)) (H0 : ℤ → ℤ → Mat3) (a b : ℤ),
      (l.foldl (fun H p => updBlk H p.1 p.2 (c p)) H0) a b
        = if (a, b) ∈ l then c (a, b) else H0 a b := by
  intro l
  induction l with
  | nil => intro H0 a b; simp
  | cons p ps ih =>
    intro H0 a b
    rw [List.foldl_cons, ih]
    by_cases hmem : (a, b) ∈ ps
    · simp [hmem]
    · by_cases hab : a = p.1 ∧ b = p.2
      · have hp : (a, b) = p := by rw [Prod.ext_iff]; exact hab
        simp [hmem, hp, hab]
      · have hne : (a, b) ≠ p := by
          intro hcon; exact hab ⟨congrArg Prod.fst hcon, congrArg Prod.snd hcon⟩
        simp [hmem, hne, hab]

theorem mapM_singleton {α β : Type} (g : α → Except Err β) (a : α) :
    [a].mapM g = g a >>= fun b => pure [b] := by
  rw [List.mapM_cons, List.mapM_nil]
  exact congrArg _ (funext fun b => rfl)

theorem getD_map {α β : Type} (g : α → β) (l : List α) (i : ℕ) (d : β) (d₀ : α)
    (hi : i < l.length) : (l.map g).getD i d = g (l.getD i d₀) := by
  rw [List.getD_eq_getElem?_getD, List.getD_eq_getElem?_getD]
  rw [List.getElem?_eq_getElem (by simpa using hi), List.getElem?_eq_getElem hi]
  simp

/-! ### Bond-length evaluator: extraction lemmas -/

theorem bondFeature_zero {xyz : List Vec3} {m n : ℤ} {xm xn : Vec3}
    (hm : getRow xyz m = .ok xm) (hn : getRow xyz n = .ok xn) :
    bondFeature xyz 0 m n = .ok ⟨norm3 (xm - xn), none, none⟩ := by
  simp [bondFeature, hm, hn]

theorem bondFeature_one {xyz : List Vec3} {m n : ℤ} {xm xn : Vec3}
    (hm : getRow xyz m = .ok xm) (hn : getRow xyz n = .ok xn) :
    bondFeature xyz 1 m n = .ok ⟨norm3 (xm - xn),
      some (updRow (updRow (fun _ => 0) m (sdiv (xm - xn) (norm3 (xm - xn)))) n
        (-(sdiv (xm - xn) (norm3 (xm - xn))))), none⟩ := by
  simp [bondFeature, hm, hn]

theorem bondFeature_two {xyz : List Vec3} {m n : ℤ} {xm xn : Vec3}
    (hm : getRow xyz m = .ok xm) (hn : getRow xyz n = .ok xn) :
    bondFeature xyz 2 m n = .ok ⟨norm3 (xm - xn),
      some (updRow (updRow (fun _ => 0) m (sdiv (xm - xn) (norm3 (xm - xn)))) n
        (-(sdiv (xm - xn) (norm3 (xm - xn))))),
      some (updBlk (updBlk (updBlk (updBlk (fun _ _ => 0) m n
          (mdiv (outer3_minus_eye (sdiv (xm - xn) (norm3 (xm - xn))) (sdiv (xm - xn) (norm3 (xm - xn)))) (norm3 (xm - xn))))
          m m (-(mdiv (outer3_minus_eye (sdiv (xm - xn) (norm3 (xm - xn))) (sdiv (xm - xn) (norm3 (xm - xn)))) (norm3 (xm - xn)))))
          n m (mdiv (outer3_minus_eye (sdiv (xm - xn) (norm3 (xm - xn))) (sdiv (xm - xn) (norm3 (xm - xn)))) (norm3 (xm - xn))))
          n n (-(mdiv (outer3_minus_eye (sdiv (xm - xn) (norm3 (xm - xn))) (sdiv (xm - xn) (norm3 (xm - xn)))) (norm3 (xm - xn)))))⟩ := by
  simp [bondFeature, hm, hn]

theorem bondFeature_ok_value {xyz : List Vec3} {dv m n : ℤ} {fo : FeatOut}
    (h : bondFeature xyz dv m n = .ok fo) :
    ∃ xm xn, getRow xyz m = .ok xm ∧ getRow xyz n = .ok xn ∧
      fo.value = norm3 (xm - xn) := by
  unfold bondFeature at h
  cases hm : getRow xyz m with
  | error e => rw [hm] at h; simp at h
  | ok xm =>
    rw [hm] at h
    cases hn : getRow xyz n with
    | error e => rw [hn] at h; simp at h
    | ok xn =>
      rw [hn] at h
      refine ⟨xm, xn, rfl, rfl, ?_⟩
      simp only [bind_ok] at h
      by_cases h1 : 1 ≤ dv
      · rw [if_pos h1] at h
        by_cases h2 : dv = 2
        · rw [if_pos h2] at h
          simp only [pure_eq_ok, Except.ok.injEq] at h
          rw [← h]
        · rw [if_neg h2] at h
          simp only [pure_eq_ok, Except.ok.injEq] at h
          rw [← h]
      · rw [if_neg h1] at h
        simp only [pure_eq_ok, Except.ok.injEq] at h
        rw [← h]

theorem bond_lengths_ok_inv {xyz : List Vec3} {idx : List (ℤ × ℤ)} {dv : ℤ}
    {out : EvalOut} (h : bond_lengths xyz idx dv = .ok out) :
    (dv = 0 ∨ dv = 1 ∨ dv = 2) ∧
    ∃ outs, idx.mapM (fun t => bondFeature xyz dv t.1 t.2) = .ok outs ∧
      out.values = outs.map (·.value) ∧
      out.jacobian = (if 1 ≤ dv then some (outs.map (fun fo => fo.jac.getD (fun _ => 0))) else none) ∧
      out.hessian = (if dv = 2 then some (outs.map (fun fo => fo.hess.getD (fun _ _ => 0))) else none) := by
  unfold bond_lengths at h
  by_cases hdv : dv = 0 ∨ dv = 1 ∨ dv = 2
  · rw [if_neg (not_not_intro hdv)] at h
    simp only [bind_ok] at h
    refine ⟨hdv, ?_⟩
    cases hmap : idx.mapM (fun t => bondFeature xyz dv t.1 t.2) with
    | error e => rw [hmap] at h; simp at h
    | ok outs =>
      rw [hmap] at h
      simp only [bind_ok, pure_eq_ok, Except.ok.injEq] at h
      exact ⟨outs, rfl, by rw [← h], by rw [← h], by rw [← h]⟩
  · rw [if_pos hdv] at h
    simp [throw, throwThe, MonadExceptOf.throw] at h

theorem bond_lengths_featureAt {xyz : List Vec3} {idx : List (ℤ × ℤ)} {dv : ℤ}
    {out : EvalOut} {f : ℕ} (h : bond_lengths xyz idx dv = .ok out)
    (hf : f < idx.length) :
    ∃ fo, bondFeature xyz dv (idx.getD f (0, 0)).1 (idx.getD f (0, 0)).2 = .ok fo ∧
      valAt (.ok out) f = fo.value ∧
      (1 ≤ dv → jacAt (.ok out) f = fo.jac.getD (fun _ => 0)) ∧
      (dv = 2 → hessAt (.ok out) f = fo.hess.getD (fun _ _ => 0)) := by
  obtain ⟨hdv, outs, hmap, hv, hj, hh⟩ := bond_lengths_ok_inv h
  have hlen : outs.length = idx.length := mapM_ok_length hmap
  refine ⟨outs.getD f ⟨0, none, none⟩, ?_, ?_, ?_, ?_⟩
  · exact mapM_ok_getD (0, 0) ⟨0, none, none⟩ hmap f hf
  · show out.values.getD f 0 = _
    rw [hv, getD_map _ _ _ _ ⟨0, none, none⟩ (by omega)]
  · intro h1
    show (out.jacobian.getD []).getD f _ = _
    rw [hj, if_pos h1]
    show (outs.map (fun fo => fo.jac.getD (fun _ => 0))).getD f (fun _ => 0) = _
    rw [getD_map _ _ _ _ ⟨0, none, none⟩ (by omega)]
  · intro h2
    show (out.hessian.getD []).getD f _ = _
    rw [hh, if_pos h2]
    show (outs.map (fun fo => fo.hess.getD (fun _ _ => 0))).getD f (fun _ _ => 0) = _
    rw [getD_map _ _ _ _ ⟨0, none, none⟩ (by omega)]

theorem bond_lengths_single {xyz : List Vec3} {m n dv : ℤ} {fo : FeatOut}
    (hdv : dv = 0 ∨ dv = 1 ∨ dv = 2)
    (hfeat : bondFeature xyz dv m n = .ok fo) :
    bond_lengths xyz [(m, n)] dv = .ok
      { values := [fo.value]
      , jacobian := if 1 ≤ dv then some [fo.jac.getD (fun _ => 0)] else none
      , hessian := if dv = 2 then some [fo.hess.getD (fun _ _ => 0)] else none } := by
  unfold bond_lengths
  rw [if_neg (not_not_intro hdv)]
  simp only [bind_ok]
  rw [List.mapM_cons, List.mapM_nil]
  simp [hfeat]

/-! ### Bond-angle evaluator: extraction lemmas -/

theorem angleFeature_zero {xyz : List Vec3} {m o n : ℤ} {xm xo xn : Vec3}
    (hm : getRow xyz m = .ok xm) (ho : getRow xyz o = .ok xo)
    (hn : getRow xyz n = .ok xn) :
    angleFeature xyz 0 m o n = .ok
      ⟨Real.arccos (dot3 (xm - xo) (xn - xo) / (norm3 (xm - xo) * norm3 (xn - xo))),
        none, none⟩ := by
  simp [angleFeature, hm, ho, hn]

theorem angleFeature_degenerate {xyz : List Vec3} {dv m o n : ℤ} {xm xo xn : Vec3}
    (hm : getRow xyz m = .ok xm) (ho : getRow xyz o = .ok xo)
    (hn : getRow xyz n = .ok xn) (hdv : 1 ≤ dv)
    (hdeg : norm3 (sdiv (xm - xo) (norm3 (xm - xo)) + sdiv (xn - xo) (norm3 (xn - xo))) < 1e-10 ∨
            norm3 (sdiv (xm - xo) (norm3 (xm - xo)) - sdiv (xn - xo) (norm3 (xn - xo))) < 1e-10) :
    angleFeature xyz dv m o n = .error .degenerateGeometry := by
  unfold angleFeature
  rw [hm, ho, hn]
  simp only [bind_ok]
  rw [if_pos hdv, if_pos hdeg]
  rfl

theorem angleFeature_ok_value {xyz : List Vec3} {dv m o n : ℤ} {fo : FeatOut}
    (h : angleFeature xyz dv m o n = .ok fo) :
    ∃ xm xo xn, getRow xyz m = .ok xm ∧ getRow xyz o = .ok xo ∧ getRow xyz n = .ok xn ∧
      fo.value = Real.arccos (dot3 (xm - xo) (xn - xo) / (norm3 (xm - xo) * norm3 (xn - xo))) := by
  unfold angleFeature at h
  cases hm : getRow xyz m with
  | error e => rw [hm] at h; simp at h
  | ok xm =>
    rw [hm] at h
    cases ho : getRow xyz o with
    | error e => rw [ho] at h; simp at h
    | ok xo =>
      rw [ho] at h
      cases hn : getRow xyz n with
      | error e => rw [hn] at h; simp at h
      | ok xn =>
        rw [hn] at h
        refine ⟨xm, xo, xn, rfl, rfl, rfl, ?_⟩
        simp only [bind_ok] at h
        by_cases h1 : 1 ≤ dv
        · rw [if_pos h1] at h
          by_cases hdeg : norm3 (sdiv (xm - xo) (norm3 (xm - xo)) + sdiv (xn - xo) (norm3 (xn - xo))) < 1e-10 ∨
              norm3 (sdiv (xm - xo) (norm3 (xm - xo)) - sdiv (xn - xo) (norm3 (xn - xo))) < 1e-10
          · rw [if_pos hdeg] at h
            simp [throw, throwThe, MonadExceptOf.throw] at h
          · rw [if_neg hdeg] at h
            by_cases h2 : dv = 2
            · rw [if_pos h2] at h
              simp only [pure_eq_ok, Except.ok.injEq] at h
              rw [← h]
            · rw [if_neg h2] at h
              simp only [pure_eq_ok, Except.ok.injEq] at h
              rw [← h]
        · rw [if_neg h1] at h
          simp only [pure_eq_ok, Except.ok.injEq] at h
          rw [← h]

theorem angleFeature_jac_sum {xyz : List Vec3} {dv m o n : ℤ} {fo : FeatOut}
    (h : angleFeature xyz dv m o n = .ok fo) (hdv : 1 ≤ dv)
    (hmo : m ≠ o) (hmn : m ≠ n) (hno : n ≠ o) :
    fo.jac.getD (fun _ => 0) m + fo.jac.getD (fun _ => 0) o + fo.jac.getD (fun _ => 0) n = 0 := by
  unfold angleFeature at h
  cases hm : getRow xyz m with
  | error e => rw [hm] at h; simp at h
  | ok xm =>
    rw [hm] at h
    cases ho : getRow xyz o with
    | error e => rw [ho] at h; simp at h
    | ok xo =>
      rw [ho] at h
      cases hn : getRow xyz n with
      | error e => rw [hn] at h; simp at h
      | ok xn =>
        rw [hn] at h
        simp only [bind_ok] at h
        rw [if_pos hdv] at h
        by_cases hdeg : norm3 (sdiv (xm - xo) (norm3 (xm - xo)) + sdiv (xn - xo) (norm3 (xn - xo))) < 1e-10 ∨
            norm3 (sdiv (xm - xo) (norm3 (xm - xo)) - sdiv (xn - xo) (norm3 (xn - xo))) < 1e-10
        · rw [if_pos hdeg] at h
          simp [throw, throwThe, MonadExceptOf.throw] at h
        · rw [if_neg hdeg] at h
          by_cases h2 : dv = 2
          · rw [if_pos h2] at h
            simp only [pure_eq_ok, Except.ok.injEq] at h
            rw [← h]
            simp only [FeatOut.jac, Option.getD_some, updRow_apply, hmo, hmn, hno,
              Ne.symm hmn, Ne.symm hno, if_false, if_true, if_pos rfl]
            abel
          · rw [if_neg h2] at h
            simp only [pure_eq_ok, Except.ok.injEq] at h
            rw [← h]
            simp only [FeatOut.jac, Option.getD_some, updRow_apply, hmo, hmn, hno,
              Ne.symm hmn, Ne.symm hno, if_false, if_true, if_pos rfl]
            abel

theorem sign6_swap (a b c i j k : ℤ) : sign6 a b c i j k = sign6 i j k a b c :=
  mul_comm _ _

theorem angleHessian_eq (m o n : ℤ) (jac : ℤ → Vec3) (cosA sinA : ℝ)
    (t1 t2 t3 t4 : Mat3) :
    angleHessian m o n jac cosA sinA t1 t2 t3 t4
      = (List.product [m, n, o] [m, n, o]).foldl
          (fun H p => fun a' b' =>
            if a' = p.1 ∧ b' = p.2 then
              H a' b' + ((sign6 p.1 m o p.2 m o : ℝ) • t1 + (sign6 p.1 n o p.2 n o : ℝ) • t2 +
                (sign6 p.1 m o p.2 n o : ℝ) • t3 + (sign6 p.1 n o p.2 m o : ℝ) • t4)
            else H a' b')
          (fun a b i j => -(cosA / sinA) * (jac a i * jac b j)) := by
  unfold angleHessian
  congr 1
  funext H p
  funext a' b'
  simp only [addBlkIf_apply]
  split_ifs with hc
  · abel
  · rfl

theorem angleHessian_apply {m o n : ℤ} {jac : ℤ → Vec3} {cosA sinA : ℝ}
    {t1 t2 t3 t4 : Mat3} (hmn : m ≠ n) (hmo : m ≠ o) (hno : n ≠ o) (a b : ℤ) :
    angleHessian m o n jac cosA sinA t1 t2 t3 t4 a b
      = (fun i j => -(cosA / sinA) * (jac a i * jac b j)) +
        (if a ∈ ([m, n, o] : List ℤ) ∧ b ∈ ([m, n, o] : List ℤ) then
          ((sign6 a m o b m o : ℝ) • t1 + (sign6 a n o b n o : ℝ) • t2 +
            (sign6 a m o b n o : ℝ) • t3 + (sign6 a n o b m o : ℝ) • t4)
        else 0) := by
  have hnd : (List.product [m, n, o] [m, n, o]).Nodup := by
    rw [product_eq_sprod]
    refine List.Nodup.product ?_ ?_ <;> simp [hmn, hmo, hno]
  have key := foldl_addBlocks
      (fun p => ((sign6 p.1 m o p.2 m o : ℝ) • t1 + (sign6 p.1 n o p.2 n o : ℝ) • t2 +
        (sign6 p.1 m o p.2 n o : ℝ) • t3 + (sign6 p.1 n o p.2 m o : ℝ) • t4))
      (List.product [m, n, o] [m, n, o])
      (fun a b i j => -(cosA / sinA) * (jac a i * jac b j)) a b hnd
  rw [angleHessian_eq]
  refine key.trans ?_
  by_cases hmem : (a, b) ∈ List.product [m, n, o] [m, n, o]
  · rw [if_pos hmem]
    rw [if_pos (by rw [product_eq_sprod] at hmem; exact List.mem_product.1 hmem)]
  · rw [if_neg hmem]
    rw [if_neg (by rw [product_eq_sprod] at hmem; rw [← List.mem_product]; exact hmem)]

theorem angleHessian_off {m o n : ℤ} {jac : ℤ → Vec3} {cosA sinA : ℝ}
    {t1 t2 t3 t4 : Mat3} {a b : ℤ}
    (hoff : a ∉ ([m, n, o] : List ℤ) ∨ b ∉ ([m, n, o] : List ℤ))
    (hjac : jac a = 0 ∨ jac b = 0) :
    angleHessian m o n jac cosA sinA t1 t2 t3 t4 a b = 0 := by
  have hmem : (a, b) ∉ List.product [m, n, o] [m, n, o] := by
    rw [product_eq_sprod]
    intro hc
    rcases hoff with h | h <;> exact h (by
      rcases List.mem_product.1 hc with ⟨h1, h2⟩
      first | exact h1 | exact h2)
  have key := foldl_addBlocks_notmem
      (fun p => ((sign6 p.1 m o p.2 m o : ℝ) • t1 + (sign6 p.1 n o p.2 n o : ℝ) • t2 +
        (sign6 p.1 m o p.2 n o : ℝ) • t3 + (sign6 p.1 n o p.2 m o : ℝ) • t4))
      (List.product [m, n, o] [m, n, o])
      (fun a b i j => -(cosA / sinA) * (jac a i * jac b j)) a b hmem
  rw [angleHessian_eq]
  refine key.trans ?_
  funext i j
  rcases hjac with hj | hj <;> simp [hj]

theorem angleHessian_symm {m o n : ℤ} {jac : ℤ → Vec3} {cosA sinA : ℝ}
    {t1 t2 t3 t4 : Mat3} (hmn : m ≠ n) (hmo : m ≠ o) (hno : n ≠ o)
    (h1 : ∀ i j, t1 i j = t1 j i) (h2 : ∀ i j, t2 i j = t2 j i)
    (h34 : ∀ i j, t3 i j = t4 j i) (a b : ℤ) (i j : Fin 3) :
    angleHessian m o n jac cosA sinA t1 t2 t3 t4 a b i j
      = angleHessian m o n jac cosA sinA t1 t2 t3 t4 b a j i := by
  rw [angleHessian_apply hmn hmo hno a b, angleHessian_apply hmn hmo hno b a]
  simp only [Pi.add_apply]
  by_cases hmem : (a ∈ ([m, n, o] : List ℤ)) ∧ (b ∈ ([m, n, o] : List ℤ))
  · rw [if_pos hmem, if_pos (⟨hmem.2, hmem.1⟩ : (b ∈ ([m, n, o] : List ℤ)) ∧ (a ∈ ([m, n, o] : List ℤ)))]
    simp only [Pi.add_apply, Pi.smul_apply, smul_eq_mul]
    rw [sign6_swap b m o a m o, sign6_swap b n o a n o, sign6_swap b m o a n o,
      sign6_swap b n o a m o, h1 j i, h2 j i, h34 j i, ← h34 i j]
    ring
  · rw [if_neg hmem, if_neg (fun hc => hmem ⟨hc.2, hc.1⟩)]
    simp only [Pi.zero_apply]
    ring

theorem bond_angles_ok_inv {xyz : List Vec3} {idx : List (ℤ × ℤ × ℤ)} {dv : ℤ}
    {out : EvalOut} (h : bond_angles xyz idx dv = .ok out) :
    (dv = 0 ∨ dv = 1 ∨ dv = 2) ∧
    ∃ outs, idx.mapM (fun t => angleFeature xyz dv t.1 t.2.1 t.2.2) = .ok outs ∧
      out.values = outs.map (·.value) ∧
      out.jacobian = (if 1 ≤ dv then some (outs.map (fun fo => fo.jac.getD (fun _ => 0))) else none) ∧
      out.hessian = (if dv = 2 then some (outs.map (fun fo => fo.hess.getD (fun _ _ => 0))) else none) := by
  unfold bond_angles at h
  by_cases hdv : dv = 0 ∨ dv = 1 ∨ dv = 2
  · rw [if_neg (not_not_intro hdv)] at h
    simp only [bind_ok] at h
    refine ⟨hdv, ?_⟩
    cases hmap : idx.mapM (fun t => angleFeature xyz dv t.1 t.2.1 t.2.2) with
    | error e => rw [hmap] at h; simp at h
    | ok outs =>
      rw [hmap] at h
      simp only [bind_ok, pure_eq_ok, Except.ok.injEq] at h
      exact ⟨outs, rfl, by rw [← h], by rw [← h], by rw [← h]⟩
  · rw [if_pos hdv] at h
    simp [throw, throwThe, MonadExceptOf.throw] at h

theorem bond_angles_featureAt {xyz : List Vec3} {idx : List (ℤ × ℤ × ℤ)} {dv : ℤ}
    {out : EvalOut} {f : ℕ} (h : bond_angles xyz idx dv = .ok out)
    (hf : f < idx.length) :
    ∃ fo, angleFeature xyz dv (idx.getD f (0, 0, 0)).1 (idx.getD f (0, 0, 0)).2.1
        (idx.getD f (0, 0, 0)).2.2 = .ok fo ∧
      valAt (.ok out) f = fo.value ∧
      (1 ≤ dv → jacAt (.ok out) f = fo.jac.getD (fun _ => 0)) ∧
      (dv = 2 → hessAt (.ok out) f = fo.hess.getD (fun _ _ => 0)) := by
  obtain ⟨hdv, outs, hmap, hv, hj, hh⟩ := bond_angles_ok_inv h
  have hlen : outs.length = idx.length := mapM_ok_length hmap
  refine ⟨outs.getD f ⟨0, none, none⟩, ?_, ?_, ?_, ?_⟩
  · exact mapM_ok_getD (0, 0, 0) ⟨0, none, none⟩ hmap f hf
  · show out.values.getD f 0 = _
    rw [hv, getD_map _ _ _ _ ⟨0, none, none⟩ (by omega)]
  · intro h1
    show (out.jacobian.getD []).getD f _ = _
    rw [hj, if_pos h1]
    show (outs.map (fun fo => fo.jac.getD (fun _ => 0))).getD f (fun _ => 0) = _
    rw [getD_map _ _ _ _ ⟨0, none, none⟩ (by omega)]
  · intro h2
    show (out.hessian.getD []).getD f _ = _
    rw [hh, if_pos h2]
    show (outs.map (fun fo => fo.hess.getD (fun _ _ => 0))).getD f (fun _ _ => 0) = _
    rw [getD_map _ _ _ _ ⟨0, none, none⟩ (by omega)]

theorem bond_angles_single {xyz : List Vec3} {m o n dv : ℤ} {fo : FeatOut}
    (hdv : dv = 0 ∨ dv = 1 ∨ dv = 2)
    (hfeat : angleFeature xyz dv m o n = .ok fo) :
    bond_angles xyz [(m, o, n)] dv = .ok
      { values := [fo.value]
      , jacobian := if 1 ≤ dv then some [fo.jac.getD (fun _ => 0)] else none
      , hessian := if dv = 2 then some [fo.hess.getD (fun _ _ => 0)] else none } := by
  unfold bond_angles
  rw [if_neg (not_not_intro hdv)]
  simp only [bind_ok]
  rw [List.mapM_cons, List.mapM_nil]
  simp [hfeat]

theorem bond_angles_single_error {xyz : List Vec3} {m o n dv : ℤ} {e : Err}
    (hdv : dv = 0 ∨ dv = 1 ∨ dv = 2)
    (hfeat : angleFeature xyz dv m o n = .error e) :
    bond_angles xyz [(m, o, n)] dv = .error e := by
  unfold bond_angles
  rw [if_neg (not_not_intro hdv)]
  simp only [bind_ok]
  rw [List.mapM_cons, List.mapM_nil]
  simp [hfeat]

theorem angleFeature_jac_off {xyz : List Vec3} {dv m o n : ℤ} {fo : FeatOut} {a : ℤ}
    (h : angleFeature xyz dv m o n = .ok fo)
    (ham : a ≠ m) (hao : a ≠ o) (han : a ≠ n) :
    fo.jac.getD (fun _ => 0) a = 0 := by
  unfold angleFeature at h
  cases hm : getRow xyz m with
  | error e => rw [hm] at h; simp at h
  | ok xm =>
    rw [hm] at h
    cases ho : getRow xyz o with
    | error e => rw [ho] at h; simp at h
    | ok xo =>
      rw [ho] at h
      cases hn : getRow xyz n with
      | error e => rw [hn] at h; simp at h
      | ok xn =>
        rw [hn] at h
        simp only [bind_ok] at h
        by_cases h1 : 1 ≤ dv
        · rw [if_pos h1] at h
          by_cases hdeg : norm3 (sdiv (xm - xo) (norm3 (xm - xo)) + sdiv (xn - xo) (norm3 (xn - xo))) < 1e-10 ∨
              norm3 (sdiv (xm - xo) (norm3 (xm - xo)) - sdiv (xn - xo) (norm3 (xn - xo))) < 1e-10
          · rw [if_pos hdeg] at h
            simp [throw, throwThe, MonadExceptOf.throw] at h
          · rw [if_neg hdeg] at h
            by_cases h2 : dv = 2
            · rw [if_pos h2] at h
              simp only [pure_eq_ok, Except.ok.injEq] at h
              rw [← h]
              simp [updRow_apply, ham, hao, han]
            · rw [if_neg h2] at h
              simp only [pure_eq_ok, Except.ok.injEq] at h
              rw [← h]
              simp [updRow_apply, ham, hao, han]
        · rw [if_neg h1] at h
          simp only [pure_eq_ok, Except.ok.injEq] at h
          rw [← h]
          simp

theorem angleFeature_hess_off {xyz : List Vec3} {dv m o n : ℤ} {fo : FeatOut} {a b : ℤ}
    (h : angleFeature xyz dv m o n = .ok fo) (h2 : dv = 2)
    (hoff : (a ≠ m ∧ a ≠ o ∧ a ≠ n) ∨ (b ≠ m ∧ b ≠ o ∧ b ≠ n)) :
    fo.hess.getD (fun _ _ => 0) a b = 0 := by
  subst h2
  unfold angleFeature at h
  cases hm : getRow xyz m with
  | error e => rw [hm] at h; simp at h
  | ok xm =>
    rw [hm] at h
    cases ho : getRow xyz o with
    | error e => rw [ho] at h; simp at h
    | ok xo =>
      rw [ho] at h
      cases hn : getRow xyz n with
      | error e => rw [hn] at h; simp at h
      | ok xn =>
        rw [hn] at h
        simp only [bind_ok] at h
        rw [if_pos (by norm_num : (1:ℤ) ≤ 2)] at h
        by_cases hdeg : norm3 (sdiv (xm - xo) (norm3 (xm - xo)) + sdiv (xn - xo) (norm3 (xn - xo))) < 1e-10 ∨
            norm3 (sdiv (xm - xo) (norm3 (xm - xo)) - sdiv (xn - xo) (norm3 (xn - xo))) < 1e-10
        · rw [if_pos hdeg] at h
          simp [throw, throwThe, MonadExceptOf.throw] at h
        · rw [if_neg hdeg] at h
          rw [if_true] at h
          simp only [pure_eq_ok, Except.ok.injEq] at h
          rw [← h]
          simp only [FeatOut.hess, Option.getD_some]
          apply angleHessian_off
          · rcases hoff with ⟨h1, h2, h3⟩ | ⟨h1, h2, h3⟩
            · exact Or.inl (by simp [h1, h2, h3])
            · exact Or.inr (by simp [h1, h2, h3])
          · rcases hoff with ⟨h1, h2, h3⟩ | ⟨h1, h2, h3⟩
            · exact Or.inl (by simp [updRow_apply, h1, h2, h3])
            · exact Or.inr (by simp [updRow_apply, h1, h2, h3])

theorem angleFeature_hess_symm {xyz : List Vec3} {dv m o n : ℤ} {fo : FeatOut}
    (h : angleFeature xyz dv m o n = .ok fo) (h2 : dv = 2)
    (hmo : m ≠ o) (hmn : m ≠ n) (hno : n ≠ o) (a b : ℤ) (i j : Fin 3) :
    fo.hess.getD (fun _ _ => 0) a b i j = fo.hess.getD (fun _ _ => 0) b a j i := by
  subst h2
  unfold angleFeature at h
  cases hm : getRow xyz m with
  | error e => rw [hm] at h; simp at h
  | ok xm =>
    rw [hm] at h
    cases ho : getRow xyz o with
    | error e => rw [ho] at h; simp at h
    | ok xo =>
      rw [ho] at h
      cases hn : getRow xyz n with
      | error e => rw [hn] at h; simp at h
      | ok xn =>
        rw [hn] at h
        simp only [bind_ok] at h
        rw [if_pos (by norm_num : (1:ℤ) ≤ 2)] at h
        by_cases hdeg : norm3 (sdiv (xm - xo) (norm3 (xm - xo)) + sdiv (xn - xo) (norm3 (xn - xo))) < 1e-10 ∨
            norm3 (sdiv (xm - xo) (norm3 (xm - xo)) - sdiv (xn - xo) (norm3 (xn - xo))) < 1e-10
        · rw [if_pos hdeg] at h
          simp [throw, throwThe, MonadExceptOf.throw] at h
        · rw [if_neg hdeg] at h
          rw [if_true] at h
          simp only [pure_eq_ok, Except.ok.injEq] at h
          rw [← h]
          simp only [FeatOut.hess, Option.getD_some]
          apply angleHessian_symm hmn hmo hno
          · intro i j
            simp only [outer3, eye]
            by_cases hij : i = j
            · subst hij; ring
            · rw [if_neg hij, if_neg (Ne.symm hij)]; ring
          · intro i j
            simp only [outer3, eye]
            by_cases hij : i = j
            · subst hij; ring
            · rw [if_neg hij, if_neg (Ne.symm hij)]; ring
          · intro i j
            simp only [outer3, eye]
            by_cases hij : i = j
            · subst hij; ring
            · rw [if_neg hij, if_neg (Ne.symm hij)]; ring

theorem bondHessChain_symm {m n : ℤ} {T : Mat3} (hT : ∀ i j, T i j = T j i)
    (hmn : m ≠ n) (a b : ℤ) (i j : Fin 3) :
    (updBlk (updBlk (updBlk (updBlk (fun _ _ => 0) m n T) m m (-T)) n m T) n n (-T)) a b i j
      = (updBlk (updBlk (updBlk (updBlk (fun _ _ => 0) m n T) m m (-T)) n m T) n n (-T)) b a j i := by
  simp only [updBlk_apply, Pi.neg_apply]
  split_ifs <;> first
    | rfl
    | exact hT i j
    | exact hT j i
    | exact neg_inj.mpr (hT i j)
    | exact neg_inj.mpr (hT j i)
    | omega

/-! ### Dihedral evaluator: extraction lemmas -/

theorem dihedralFeature_zero {xyz : List Vec3} {m o p n : ℤ} {xm xo xp xn : Vec3}
    (hm : getRow xyz m = .ok xm) (ho : getRow xyz o = .ok xo)
    (hp : getRow xyz p = .ok xp) (hn : getRow xyz n = .ok xn) :
    dihedralFeature xyz 0 m o p n = .ok
      ⟨atan2 (dot3 (xm - xo) (cross3 (xn - xp) (xp - xo)) * norm3 (xp - xo))
             (dot3 (cross3 (xn - xp) (xp - xo)) (cross3 (xm - xo) (xp - xo))),
        none, none⟩ := by
  simp [dihedralFeature, hm, ho, hp, hn]

theorem dihedralFeature_ok_value {xyz : List Vec3} {dv m o p n : ℤ} {fo : FeatOut}
    (h : dihedralFeature xyz dv m o p n = .ok fo) :
    ∃ xm xo xp xn, getRow xyz m = .ok xm ∧ getRow xyz o = .ok xo ∧
      getRow xyz p = .ok xp ∧ getRow xyz n = .ok xn ∧
      fo.value = atan2 (dot3 (xm - xo) (cross3 (xn - xp) (xp - xo)) * norm3 (xp - xo))
        (dot3 (cross3 (xn - xp) (xp - xo)) (cross3 (xm - xo) (xp - xo))) := by
  unfold dihedralFeature at h
  cases hm : getRow xyz m with
  | error e => rw [hm] at h; simp at h
  | ok xm =>
    rw [hm] at h
    cases ho : getRow xyz o with
    | error e => rw [ho] at h; simp at h
    | ok xo =>
      rw [ho] at h
      cases hp : getRow xyz p with
      | error e => rw [hp] at h; simp at h
      | ok xp =>
        rw [hp] at h
        cases hn : getRow xyz n with
        | error e => rw [hn] at h; simp at h
        | ok xn =>
          rw [hn] at h
          refine ⟨xm, xo, xp, xn, rfl, rfl, rfl, rfl, ?_⟩
          simp only [bind_ok] at h
          by_cases h1 : 1 ≤ dv
          · rw [if_pos h1] at h
            by_cases h2 : dv = 2
            · rw [if_pos h2] at h
              simp only [pure_eq_ok, Except.ok.injEq] at h
              rw [← h]
            · rw [if_neg h2] at h
              simp only [pure_eq_ok, Except.ok.injEq] at h
              rw [← h]
          · rw [if_neg h1] at h
            simp only [pure_eq_ok, Except.ok.injEq] at h
            rw [← h]

theorem dihedralFeature_jac_sum {xyz : List Vec3} {dv m o p n : ℤ} {fo : FeatOut}
    (h : dihedralFeature xyz dv m o p n = .ok fo) (hdv : 1 ≤ dv)
    (hmo : m ≠ o) (hmp : m ≠ p) (hmn : m ≠ n) (hop : o ≠ p) (hon : o ≠ n)
    (hpn : p ≠ n) :
    fo.jac.getD (fun _ => 0) m + fo.jac.getD (fun _ => 0) o +
      fo.jac.getD (fun _ => 0) p + fo.jac.getD (fun _ => 0) n = 0 := by
  unfold dihedralFeature at h
  cases hm : getRow xyz m with
  | error e => rw [hm] at h; simp at h
  | ok xm =>
    rw [hm] at h
    cases ho : getRow xyz o with
    | error e => rw [ho] at h; simp at h
    | ok xo =>
      rw [ho] at h
      cases hp : getRow xyz p with
      | error e => rw [hp] at h; simp at h
      | ok xp =>
        rw [hp] at h
        cases hn : getRow xyz n with
        | error e => rw [hn] at h; simp at h
        | ok xn =>
          rw [hn] at h
          simp only [bind_ok] at h
          rw [if_pos hdv] at h
          by_cases h2 : dv = 2
          · rw [if_pos h2] at h
            simp only [pure_eq_ok, Except.ok.injEq] at h
            rw [← h]
            simp only [FeatOut.jac, Option.getD_some, updRow_apply, hmo, hmp, hmn,
              hop, hon, hpn, Ne.symm hon, Ne.symm hpn, Ne.symm hop, if_false,
              if_true, if_pos rfl]
            abel
          · rw [if_neg h2] at h
            simp only [pure_eq_ok, Except.ok.injEq] at h
            rw [← h]
            simp only [FeatOut.jac, Option.getD_some, updRow_apply, hmo, hmp, hmn,
              hop, hon, hpn, Ne.symm hon, Ne.symm hpn, Ne.symm hop, if_false,
              if_true, if_pos rfl]
            abel

theorem dihedralFeature_jac_off {xyz : List Vec3} {dv m o p n : ℤ} {fo : FeatOut}
    {a : ℤ} (h : dihedralFeature xyz dv m o p n = .ok fo)
    (ham : a ≠ m) (hao : a ≠ o) (hap : a ≠ p) (han : a ≠ n) :
    fo.jac.getD (fun _ => 0) a = 0 := by
  unfold dihedralFeature at h
  cases hm : getRow xyz m with
  | error e => rw [hm] at h; simp at h
  | ok xm =>
    rw [hm] at h
    cases ho : getRow xyz o with
    | error e => rw [ho] at h; simp at h
    | ok xo =>
      rw [ho] at h
      cases hp : getRow xyz p with
      | error e => rw [hp] at h; simp at h
      | ok xp =>
        rw [hp] at h
        cases hn : getRow xyz n with
        | error e => rw [hn] at h; simp at h
        | ok xn =>
          rw [hn] at h
          simp only [bind_ok] at h
          by_cases h1 : 1 ≤ dv
          · rw [if_pos h1] at h
            by_cases h2 : dv = 2
            · rw [if_pos h2] at h
              simp only [pure_eq_ok, Except.ok.injEq] at h
              rw [← h]
              simp [updRow_apply, ham, hao, hap, han]
            · rw [if_neg h2] at h
              simp only [pure_eq_ok, Except.ok.injEq] at h
              rw [← h]
              simp [updRow_apply, ham, hao, hap, han]
          · rw [if_neg h1] at h
            simp only [pure_eq_ok, Except.ok.injEq] at h
            rw [← h]
            simp

theorem dihedralHessian_apply (m o p n : ℤ) (ht1 ht2 ht3 ht4 ht5 ht6 ht7 ht8 : Mat3)
    (a b : ℤ) :
    dihedralHessian m o p n ht1 ht2 ht3 ht4 ht5 ht6 ht7 ht8 a b
      = if (a, b) ∈ List.product [m, n, o, p] [m, n, o, p] then
          dihedralFactor m o p n ht1 ht2 ht3 ht4 ht5 ht6 ht7 ht8 a b
        else 0 :=
  foldl_setBlocks
    (fun q => dihedralFactor m o p n ht1 ht2 ht3 ht4 ht5 ht6 ht7 ht8 q.1 q.2)
    (List.product [m, n, o, p] [m, n, o, p]) (fun _ _ => 0) a b

theorem dihedralFeature_hess_off {xyz : List Vec3} {dv m o p n : ℤ} {fo : FeatOut}
    {a b : ℤ} (h : dihedralFeature xyz dv m o p n = .ok fo) (h2 : dv = 2)
    (hoff : (a ≠ m ∧ a ≠ o ∧ a ≠ p ∧ a ≠ n) ∨ (b ≠ m ∧ b ≠ o ∧ b ≠ p ∧ b ≠ n)) :
    fo.hess.getD (fun _ _ => 0) a b = 0 := by
  subst h2
  unfold dihedralFeature at h
  cases hm : getRow xyz m with
  | error e => rw [hm] at h; simp at h
  | ok xm =>
    rw [hm] at h
    cases ho : getRow xyz o with
    | error e => rw [ho] at h; simp at h
    | ok xo =>
      rw [ho] at h
      cases hp : getRow xyz p with
      | error e => rw [hp] at h; simp at h
      | ok xp =>
        rw [hp] at h
        cases hn : getRow xyz n with
        | error e => rw [hn] at h; simp at h
        | ok xn =>
          rw [hn] at h
          simp only [bind_ok] at h
          rw [if_pos (by norm_num : (1:ℤ) ≤ 2)] at h
          rw [if_true] at h
          simp only [pure_eq_ok, Except.ok.injEq] at h
          rw [← h]
          simp only [FeatOut.hess, Option.getD_some]
          have hmem : (a, b) ∉ List.product [m, n, o, p] [m, n, o, p] := by
            rw [product_eq_sprod]
            intro hc
            rcases List.mem_product.1 hc with ⟨h1, h2⟩
            simp only [List.mem_cons, List.not_mem_nil, or_false] at h1 h2
            rcases hoff with ⟨q1, q2, q3, q4⟩ | ⟨q1, q2, q3, q4⟩
            · rcases h1 with e | e | e | e <;> simp_all
            · rcases h2 with e | e | e | e <;> simp_all
          rw [dihedralHessian_apply, if_neg hmem]

theorem dihedral_angles_ok_inv {xyz : List Vec3} {idx : List (ℤ × ℤ × ℤ × ℤ)}
    {dv : ℤ} {out : EvalOut} (h : dihedral_angles xyz idx dv = .ok out) :
    (dv = 0 ∨ dv = 1 ∨ dv = 2) ∧
    ∃ outs, idx.mapM (fun t => dihedralFeature xyz dv t.1 t.2.1 t.2.2.1 t.2.2.2) = .ok outs ∧
      out.values = outs.map (·.value) ∧
      out.jacobian = (if 1 ≤ dv then some (outs.map (fun fo => fo.jac.getD (fun _ => 0))) else none) ∧
      out.hessian = (if dv = 2 then some (outs.map (fun fo => fo.hess.getD (fun _ _ => 0))) else none) := by
  unfold dihedral_angles at h
  by_cases hdv : dv = 0 ∨ dv = 1 ∨ dv = 2
  · rw [if_neg (not_not_intro hdv)] at h
    simp only [bind_ok] at h
    refine ⟨hdv, ?_⟩
    cases hmap : idx.mapM (fun t => dihedralFeature xyz dv t.1 t.2.1 t.2.2.1 t.2.2.2) with
    | error e => rw [hmap] at h; simp at h
    | ok outs =>
      rw [hmap] at h
      simp only [bind_ok, pure_eq_ok, Except.ok.injEq] at h
      exact ⟨outs, rfl, by rw [← h], by rw [← h], by rw [← h]⟩
  · rw [if_pos hdv] at h
    simp [throw, throwThe, MonadExceptOf.throw] at h

theorem dihedral_angles_featureAt {xyz : List Vec3} {idx : List (ℤ × ℤ × ℤ × ℤ)}
    {dv : ℤ} {out : EvalOut} {f : ℕ} (h : dihedral_angles xyz idx dv = .ok out)
    (hf : f < idx.length) :
    ∃ fo, dihedralFeature xyz dv (idx.getD f (0, 0, 0, 0)).1 (idx.getD f (0, 0, 0, 0)).2.1
        (idx.getD f (0, 0, 0, 0)).2.2.1 (idx.getD f (0, 0, 0, 0)).2.2.2 = .ok fo ∧
      valAt (.ok out) f = fo.value ∧
      (1 ≤ dv → jacAt (.ok out) f = fo.jac.getD (fun _ => 0)) ∧
      (dv = 2 → hessAt (.ok out) f = fo.hess.getD (fun _ _ => 0)) := by
  obtain ⟨hdv, outs, hmap, hv, hj, hh⟩ := dihedral_angles_ok_inv h
  have hlen : outs.length = idx.length := mapM_ok_length hmap
  refine ⟨outs.getD f ⟨0, none, none⟩, ?_, ?_, ?_, ?_⟩
  · exact mapM_ok_getD (0, 0, 0, 0) ⟨0, none, none⟩ hmap f hf
  · show out.values.getD f 0 = _
    rw [hv, getD_map _ _ _ _ ⟨0, none, none⟩ (by omega)]
  · intro h1
    show (out.jacobian.getD []).getD f _ = _
    rw [hj, if_pos h1]
    show (outs.map (fun fo => fo.jac.getD (fun _ => 0))).getD f (fun _ => 0) = _
    rw [getD_map _ _ _ _ ⟨0, none, none⟩ (by omega)]
  · intro h2
    show (out.hessian.getD []).getD f _ = _
    rw [hh, if_pos h2]
    show (outs.map (fun fo => fo.hess.getD (fun _ _ => 0))).getD f (fun _ _ => 0) = _
    rw [getD_map _ _ _ _ ⟨0, none, none⟩ (by omega)]

theorem dihedral_angles_single {xyz : List Vec3} {m o p n dv : ℤ} {fo : FeatOut}
    (hdv : dv = 0 ∨ dv = 1 ∨ dv = 2)
    (hfeat : dihedralFeature xyz dv m o p n = .ok fo) :
    dihedral_angles xyz [(m, o, p, n)] dv = .ok
      { values := [fo.value]
      , jacobian := if 1 ≤ dv then some [fo.jac.getD (fun _ => 0)] else none
      , hessian := if dv = 2 then some [fo.hess.getD (fun _ _ => 0)] else none } := by
  unfold dihedral_angles
  rw [if_neg (not_not_intro hdv)]
  simp only [bind_ok]
  rw [List.mapM_cons, List.mapM_nil]
  simp [hfeat]

/-! ### Numeric helper lemmas for concrete witnesses -/

theorem norm3_of_sum (v : Vec3) (c : ℝ) (h : v 0 * v 0 + v 1 * v 1 + v 2 * v 2 = c) :
    norm3 v = Real.sqrt c := by rw [norm3, h]

theorem norm3_not_small {v : Vec3} (h : 1 ≤ v 0 * v 0 + v 1 * v 1 + v 2 * v 2) :
    ¬ norm3 v < 1e-10 := by
  intro hc
  have h1 : (1 : ℝ) ≤ norm3 v := by
    rw [norm3]
    calc (1 : ℝ) = Real.sqrt 1 := Real.sqrt_one.symm
    _ ≤ _ := Real.sqrt_le_sqrt h
  norm_num at hc
  linarith

theorem sdiv_one (v : Vec3) : sdiv v 1 = v := funext fun i => div_one _

theorem sq_norm3 (v : Vec3) : norm3 v * norm3 v = v 0 * v 0 + v 1 * v 1 + v 2 * v 2 :=
  Real.mul_self_sqrt
    (add_nonneg (add_nonneg (mul_self_nonneg _) (mul_self_nonneg _)) (mul_self_nonneg _))

theorem value_det_aux {xm xn xm' xn' : Vec3} (h1 : xm = xm') (h2 : xn = xn') :
    norm3 (xm - xn) = norm3 (xm' - xn') := by rw [h1, h2]

theorem bondFeature_value_det {xyz : List Vec3} {dv dv' m n : ℤ} {fo fo' : FeatOut}
    (h : bondFeature xyz dv m n = .ok fo) (h' : bondFeature xyz dv' m n = .ok fo') :
    fo.value = fo'.value := by
  obtain ⟨xm, xn, hm, hn, hv⟩ := bondFeature_ok_value h
  obtain ⟨xm', xn', hm', hn', hv'⟩ := bondFeature_ok_value h'
  rw [hm] at hm'
  rw [hn] at hn'
  injection hm' with e1
  injection hn' with e2
  rw [hv, hv', e1, e2]

theorem angleFeature_value_det {xyz : List Vec3} {dv dv' m o n : ℤ} {fo fo' : FeatOut}
    (h : angleFeature xyz dv m o n = .ok fo) (h' : angleFeature xyz dv' m o n = .ok fo') :
    fo.value = fo'.value := by
  obtain ⟨xm, xo, xn, hm, ho, hn, hv⟩ := angleFeature_ok_value h
  obtain ⟨xm', xo', xn', hm', ho', hn', hv'⟩ := angleFeature_ok_value h'
  rw [hm] at hm'
  rw [ho] at ho'
  rw [hn] at hn'
  injection hm' with e1
  injection ho' with e2
  injection hn' with e3
  rw [hv, hv', e1, e2, e3]

theorem dihedralFeature_value_det {xyz : List Vec3} {dv dv' m o p n : ℤ}
    {fo fo' : FeatOut} (h : dihedralFeature xyz dv m o p n = .ok fo)
    (h' : dihedralFeature xyz dv' m o p n = .ok fo') : fo.value = fo'.value := by
  obtain ⟨xm, xo, xp, xn, hm, ho, hp, hn, hv⟩ := dihedralFeature_ok_value h
  obtain ⟨xm', xo', xp', xn', hm', ho', hp', hn', hv'⟩ := dihedralFeature_ok_value h'
  rw [hm] at hm'
  rw [ho] at ho'
  rw [hp] at hp'
  rw [hn] at hn'
  injection hm' with e1
  injection ho' with e2
  injection hp' with e3
  injection hn' with e4
  rw [hv, hv', e1, e2, e3, e4]

theorem mapM_values_eq {α : Type} {f g : α → Except Err FeatOut}
    (hfg : ∀ x fo go, f x = .ok fo → g x = .ok go → fo.value = go.value) :
    ∀ {l : List α} {l0 l1 : List FeatOut}, l.mapM f = .ok l0 → l.mapM g = .ok l1 →
      l0.map (·.value) = l1.map (·.value) := by
  intro l
  induction l with
  | nil =>
    intro l0 l1 h0 h1
    rw [List.mapM_nil] at h0 h1
    simp only [pure_eq_ok, Except.ok.injEq] at h0 h1
    rw [← h0, ← h1]
  | cons a as ih =>
    intro l0 l1 h0 h1
    rw [List.mapM_cons] at h0 h1
    cases hfa : f a with
    | error e => rw [hfa] at h0; simp at h0
    | ok b =>
      rw [hfa] at h0
      cases hfl : as.mapM f with
      | error e => rw [hfl] at h0; simp at h0
      | ok bs =>
        rw [hfl] at h0
        simp only [bind_ok, pure_eq_ok, Except.ok.injEq] at h0
        cases hga : g a with
        | error e => rw [hga] at h1; simp at h1
        | ok c =>
          rw [hga] at h1
          cases hgl : as.mapM g with
          | error e => rw [hgl] at h1; simp at h1
          | ok cs =>
            rw [hgl] at h1
            simp only [bind_ok, pure_eq_ok, Except.ok.injEq] at h1
            rw [← h0, ← h1]
            simp only [List.map_cons, List.cons.injEq]
            exact ⟨hfg a b c hfa hga, ih hfl hgl⟩

theorem angleFeature_nondeg_ok {xyz : List Vec3} {dv m o n : ℤ} {xm xo xn : Vec3}
    (hm : getRow xyz m = .ok xm) (ho : getRow xyz o = .ok xo)
    (hn : getRow xyz n = .ok xn)
    (hdeg : ¬(norm3 (sdiv (xm - xo) (norm3 (xm - xo)) + sdiv (xn - xo) (norm3 (xn - xo))) < 1e-10 ∨
             norm3 (sdiv (xm - xo) (norm3 (xm - xo)) - sdiv (xn - xo) (norm3 (xn - xo))) < 1e-10)) :
    ∃ fo, angleFeature xyz dv m o n = .ok fo := by
  unfold angleFeature
  rw [hm, ho, hn]
  simp only [bind_ok]
  by_cases h1 : 1 ≤ dv
  · rw [if_pos h1, if_neg hdeg]
    by_cases h2 : dv = 2
    · rw [if_pos h2]; exact ⟨_, rfl⟩
    · rw [if_neg h2]; exact ⟨_, rfl⟩
  · rw [if_neg h1]; exact ⟨_, rfl⟩

theorem rightAngle_deg_false :
    ¬(norm3 (sdiv (mk3 1 0 0 - mk3 0 0 0) (norm3 (mk3 1 0 0 - mk3 0 0 0)) +
        sdiv (mk3 0 1 0 - mk3 0 0 0) (norm3 (mk3 0 1 0 - mk3 0 0 0))) < 1e-10 ∨
      norm3 (sdiv (mk3 1 0 0 - mk3 0 0 0) (norm3 (mk3 1 0 0 - mk3 0 0 0)) -
        sdiv (mk3 0 1 0 - mk3 0 0 0) (norm3 (mk3 0 1 0 - mk3 0 0 0))) < 1e-10) := by
  have e1 : norm3 (mk3 1 0 0 - mk3 0 0 0) = 1 := by
    rw [norm3_of_sum _ 1 (by norm_num [Pi.sub_apply]), Real.sqrt_one]
  have e2 : norm3 (mk3 0 1 0 - mk3 0 0 0) = 1 := by
    rw [norm3_of_sum _ 1 (by norm_num [Pi.sub_apply]), Real.sqrt_one]
  rw [e1, e2, sdiv_one, sdiv_one]
  push_neg
  constructor
  · exact not_lt.1 (norm3_not_small (by norm_num [Pi.add_apply, Pi.sub_apply]))
  · exact not_lt.1 (norm3_not_small (by norm_num [Pi.sub_apply]))

theorem exFrame3_angle_ok (dv : ℤ) : ∃ fo, angleFeature exFrame3 dv 0 1 2 = .ok fo :=
  angleFeature_nondeg_ok rfl rfl rfl rightAngle_deg_false

theorem exFrame3b_angle_ok (dv : ℤ) : ∃ fo, angleFeature exFrame3b dv 0 1 2 = .ok fo :=
  angleFeature_nondeg_ok rfl rfl rfl rightAngle_deg_false

theorem bondFeature_jac_off {xyz : List Vec3} {dv m n : ℤ} {fo : FeatOut} {a : ℤ}
    (h : bondFeature xyz dv m n = .ok fo) (ham : a ≠ m) (han : a ≠ n) :
    fo.jac.getD (fun _ => 0) a = 0 := by
  unfold bondFeature at h
  cases hm : getRow xyz m with
  | error e => rw [hm] at h; simp at h
  | ok xm =>
    rw [hm] at h
    cases hn : getRow xyz n with
    | error e => rw [hn] at h; simp at h
    | ok xn =>
      rw [hn] at h
      simp only [bind_ok] at h
      by_cases h1 : 1 ≤ dv
      · rw [if_pos h1] at h
        by_cases h2 : dv = 2
        · rw [if_pos h2] at h
          simp only [pure_eq_ok, Except.ok.injEq] at h
          rw [← h]
          simp [updRow_apply, ham, han]
        · rw [if_neg h2] at h
          simp only [pure_eq_ok, Except.ok.injEq] at h
          rw [← h]
          simp [updRow_apply, ham, han]
      · rw [if_neg h1] at h
        simp only [pure_eq_ok, Except.ok.injEq] at h
        rw [← h]
        simp

theorem bondFeature_hess_off {xyz : List Vec3} {dv m n : ℤ} {fo : FeatOut} {a b : ℤ}
    (h : bondFeature xyz dv m n = .ok fo) (h2 : dv = 2)
    (hoff : (a ≠ m ∧ a ≠ n) ∨ (b ≠ m ∧ b ≠ n)) :
    fo.hess.getD (fun _ _ => 0) a b = 0 := by
  subst h2
  unfold bondFeature at h
  cases hm : getRow xyz m with
  | error e => rw [hm] at h; simp at h
  | ok xm =>
    rw [hm] at h
    cases hn : getRow xyz n with
    | error e => rw [hn] at h; simp at h
    | ok xn =>
      rw [hn] at h
      simp only [bind_ok] at h
      rw [if_pos (by norm_num : (1:ℤ) ≤ 2)] at h
      rw [if_true] at h
      simp only [pure_eq_ok, Except.ok.injEq] at h
      rw [← h]
      rcases hoff with ⟨q1, q2⟩ | ⟨q1, q2⟩ <;>
        simp [updBlk_apply, q1, q2]

/-! ### Claim theorems -/

/-- Claim C10: the combinatorial selector satisfies the exchange identity
`sign6(a,b,c,i,j,k) = sign6(i,j,k,a,b,c)`, and `sign3(i,j,k)` returns `1`
whenever `i = j` (even if also `i = k`), `-1` when `i = k` and `i ≠ j`, and
`0` otherwise. -/
theorem sign_selector_exchange_and_cases (a b c i j k : ℤ) :
    sign6 a b c i j k = sign6 i j k a b c ∧
    (i = j → sign3 i j k = 1) ∧
    (i ≠ j → i = k → sign3 i j k = -1) ∧
    (i ≠ j → i ≠ k → sign3 i j k = 0) := by
  refine ⟨sign6_swap a b c i j k, ?_, ?_, ?_⟩
  · intro h; simp [sign3, h]
  · intro h1 h2; subst h2; simp [sign3, h1]
  · intro h1 h2; simp [sign3, h1, h2]

theorem sign_selector_exchange_and_cases_witness :
    sign6 1 2 3 4 5 6 = sign6 4 5 6 1 2 3 ∧ sign3 7 7 7 = 1 ∧
    sign3 8 9 8 = -1 ∧ sign3 1 2 3 = 0 :=
  ⟨(sign_selector_exchange_and_cases 1 2 3 4 5 6).1,
   (sign_selector_exchange_and_cases 0 0 0 7 7 7).2.1 rfl,
   (sign_selector_exchange_and_cases 0 0 0 8 9 8).2.2.1 (by decide) rfl,
   (sign_selector_exchange_and_cases 0 0 0 1 2 3).2.2.2 (by decide) (by decide)⟩

/-- Claim C3: for every dihedral tuple `(m,o,p,n)`, with `u = x[m] - x[o]`,
`v = x[n] - x[p]`, `w = x[p] - x[o]`, the returned value equals
`atan2(dot(u, cross(v,w)) * |w|, dot(cross(v,w), cross(u,w)))` and lies in
the signed range `(-pi, pi]` (the formula is the `atan2` one, not `acos`). -/
theorem dihedral_value_atan2_range {xyz : List Vec3} {idx : List (ℤ × ℤ × ℤ × ℤ)}
    {dv : ℤ} {out : EvalOut} {f : ℕ} {xm xo xp xn : Vec3}
    (h : dihedral_angles xyz idx dv = .ok out) (hf : f < idx.length)
    (hm : getRow xyz (idx.getD f (0, 0, 0, 0)).1 = .ok xm)
    (ho : getRow xyz (idx.getD f (0, 0, 0, 0)).2.1 = .ok xo)
    (hp : getRow xyz (idx.getD f (0, 0, 0, 0)).2.2.1 = .ok xp)
    (hn : getRow xyz (idx.getD f (0, 0, 0, 0)).2.2.2 = .ok xn) :
    valAt (.ok out) f =
      atan2 (dot3 (xm - xo) (cross3 (xn - xp) (xp - xo)) * norm3 (xp - xo))
        (dot3 (cross3 (xn - xp) (xp - xo)) (cross3 (xm - xo) (xp - xo))) ∧
    -Real.pi < valAt (.ok out) f ∧ valAt (.ok out) f ≤ Real.pi := by
  obtain ⟨fo, hfeat, hval, _, _⟩ := dihedral_angles_featureAt h hf
  obtain ⟨xm', xo', xp', xn', hm', ho', hp', hn', hv⟩ := dihedralFeature_ok_value hfeat
  rw [hm] at hm'
  rw [ho] at ho'
  rw [hp] at hp'
  rw [hn] at hn'
  injection hm' with e1
  injection ho' with e2
  injection hp' with e3
  injection hn' with e4
  subst e1; subst e2; subst e3; subst e4
  refine ⟨by rw [hval, hv], ?_, ?_⟩
  · rw [hval, hv]
    exact Complex.neg_pi_lt_arg _
  · rw [hval, hv]
    exact Complex.arg_le_pi _

theorem dihedral_value_atan2_range_witness :
    -Real.pi < valAt (dihedral_angles exFrame4 [(0, 1, 2, 3)] 0) 0 ∧
    valAt (dihedral_angles exFrame4 [(0, 1, 2, 3)] 0) 0 ≤ Real.pi := by
  obtain ⟨out, hout⟩ : isOk (dihedral_angles exFrame4 [(0, 1, 2, 3)] 0) := ⟨_, rfl⟩
  have key := @dihedral_value_atan2_range exFrame4 [(0, 1, 2, 3)] 0 out 0 _ _ _ _
    hout (by norm_num) rfl rfl rfl rfl
  rw [hout]
  exact ⟨key.2.1, key.2.2⟩

/-- Claim C9: for every frame and index list on which both calls succeed, the
values returned at order 0 are identical to the values component returned at
order 1 or 2, for all three coordinate families. -/
theorem order_consistency_values :
    (∀ (xyz : List Vec3) (idx : List (ℤ × ℤ)) (dv : ℤ) (out0 outd : EvalOut),
      (dv = 1 ∨ dv = 2) → bond_lengths xyz idx 0 = .ok out0 →
      bond_lengths xyz idx dv = .ok outd → out0.values = outd.values) ∧
    (∀ (xyz : List Vec3) (idx : List (ℤ × ℤ × ℤ)) (dv : ℤ) (out0 outd : EvalOut),
      (dv = 1 ∨ dv = 2) → bond_angles xyz idx 0 = .ok out0 →
      bond_angles xyz idx dv = .ok outd → out0.values = outd.values) ∧
    (∀ (xyz : List Vec3) (idx : List (ℤ × ℤ × ℤ × ℤ)) (dv : ℤ) (out0 outd : EvalOut),
      (dv = 1 ∨ dv = 2) → dihedral_angles xyz idx 0 = .ok out0 →
      dihedral_angles xyz idx dv = .ok outd → out0.values = outd.values) := by
  refine ⟨?_, ?_, ?_⟩
  · intro xyz idx dv out0 outd _ h0 hd
    obtain ⟨_, outs0, hmap0, hv0, _, _⟩ := bond_lengths_ok_inv h0
    obtain ⟨_, outsd, hmapd, hvd, _, _⟩ := bond_lengths_ok_inv hd
    rw [hv0, hvd]
    exact mapM_values_eq (fun x fo go hf hg => bondFeature_value_det hf hg) hmap0 hmapd
  · intro xyz idx dv out0 outd _ h0 hd
    obtain ⟨_, outs0, hmap0, hv0, _, _⟩ := bond_angles_ok_inv h0
    obtain ⟨_, outsd, hmapd, hvd, _, _⟩ := bond_angles_ok_inv hd
    rw [hv0, hvd]
    exact mapM_values_eq (fun x fo go hf hg => angleFeature_value_det hf hg) hmap0 hmapd
  · intro xyz idx dv out0 outd _ h0 hd
    obtain ⟨_, outs0, hmap0, hv0, _, _⟩ := dihedral_angles_ok_inv h0
    obtain ⟨_, outsd, hmapd, hvd, _, _⟩ := dihedral_angles_ok_inv hd
    rw [hv0, hvd]
    exact mapM_values_eq (fun x fo go hf hg => dihedralFeature_value_det hf hg) hmap0 hmapd

theorem order_consistency_values_witness :
    ∃ b0 b1 a0 a1 d0 d1 : EvalOut,
      bond_lengths exFrame2 [(0, 1)] 0 = .ok b0 ∧
      bond_lengths exFrame2 [(0, 1)] 1 = .ok b1 ∧ b0.values = b1.values ∧
      bond_angles exFrame3 [(0, 1, 2)] 0 = .ok a0 ∧
      bond_angles exFrame3 [(0, 1, 2)] 1 = .ok a1 ∧ a0.values = a1.values ∧
      dihedral_angles exFrame4 [(0, 1, 2, 3)] 0 = .ok d0 ∧
      dihedral_angles exFrame4 [(0, 1, 2, 3)] 1 = .ok d1 ∧ d0.values = d1.values := by
  obtain ⟨fo1, hfo1⟩ := exFrame3_angle_ok 1
  obtain ⟨fo0, hfo0⟩ := exFrame3_angle_ok 0
  have hA0 := bond_angles_single (by norm_num) hfo0
  have hA1 := bond_angles_single (by norm_num) hfo1
  refine ⟨_, _, _, _, _, _, rfl, rfl, ?_, hA0, hA1, ?_, rfl, rfl, ?_⟩
  · exact order_consistency_values.1 exFrame2 [(0, 1)] 1 _ _ (Or.inl rfl) rfl rfl
  · exact order_consistency_values.2.1 exFrame3 [(0, 1, 2)] 1 _ _ (Or.inl rfl) hA0 hA1
  · exact order_consistency_values.2.2 exFrame4 [(0, 1, 2, 3)] 1 _ _ (Or.inl rfl) rfl rfl

/-- Claim C2: for every angle feature `(m,o,n)` of distinct atoms evaluated at
order ≥ 1, the three Jacobian rows at `m`, `o`, `n` sum exactly to the zero
3-vector; likewise the four rows at `m`, `o`, `p`, `n` of every dihedral
feature of distinct atoms. -/
theorem jacobian_rows_sum_zero :
    (∀ (xyz : List Vec3) (idx : List (ℤ × ℤ × ℤ)) (dv : ℤ) (out : EvalOut) (f : ℕ)
        (m o n : ℤ), bond_angles xyz idx dv = .ok out → 1 ≤ dv → f < idx.length →
        idx.getD f (0, 0, 0) = (m, o, n) → m ≠ o → m ≠ n → n ≠ o →
        jacAt (.ok out) f m + jacAt (.ok out) f o + jacAt (.ok out) f n = 0) ∧
    (∀ (xyz : List Vec3) (idx : List (ℤ × ℤ × ℤ × ℤ)) (dv : ℤ) (out : EvalOut) (f : ℕ)
        (m o p n : ℤ), dihedral_angles xyz idx dv = .ok out → 1 ≤ dv → f < idx.length →
        idx.getD f (0, 0, 0, 0) = (m, o, p, n) →
        m ≠ o → m ≠ p → m ≠ n → o ≠ p → o ≠ n → p ≠ n →
        jacAt (.ok out) f m + jacAt (.ok out) f o + jacAt (.ok out) f p +
          jacAt (.ok out) f n = 0) := by
  constructor
  · intro xyz idx dv out f m o n h hdv hf ht hmo hmn hno
    obtain ⟨fo, hfeat, _, hjac, _⟩ := bond_angles_featureAt h hf
    rw [ht] at hfeat
    rw [hjac hdv]
    exact angleFeature_jac_sum hfeat hdv hmo hmn hno
  · intro xyz idx dv out f m o p n h hdv hf ht hmo hmp hmn hop hon hpn
    obtain ⟨fo, hfeat, _, hjac, _⟩ := dihedral_angles_featureAt h hf
    rw [ht] at hfeat
    rw [hjac hdv]
    exact dihedralFeature_jac_sum hfeat hdv hmo hmp hmn hop hon hpn

theorem jacobian_rows_sum_zero_witness :
    ∃ outA outD : EvalOut,
      bond_angles exFrame3 [(0, 1, 2)] 1 = .ok outA ∧
      jacAt (.ok outA) 0 0 + jacAt (.ok outA) 0 1 + jacAt (.ok outA) 0 2 = 0 ∧
      dihedral_angles exFrame4 [(0, 1, 2, 3)] 1 = .ok outD ∧
      jacAt (.ok outD) 0 0 + jacAt (.ok outD) 0 1 + jacAt (.ok outD) 0 2 +
        jacAt (.ok outD) 0 3 = 0 := by
  obtain ⟨fo, hfo⟩ := exFrame3_angle_ok 1
  have hA := bond_angles_single (by norm_num) hfo
  refine ⟨_, _, hA, ?_, rfl, ?_⟩
  · exact jacobian_rows_sum_zero.1 exFrame3 [(0, 1, 2)] 1 _ 0 0 1 2 hA (by norm_num)
      (by norm_num) rfl (by decide) (by decide) (by decide)
  · exact jacobian_rows_sum_zero.2 exFrame4 [(0, 1, 2, 3)] 1 _ 0 0 1 2 3 rfl
      (by norm_num) (by norm_num) rfl (by decide) (by decide) (by decide) (by decide)
      (by decide) (by decide)

/-- Claim C7: for every successful call at order ≥ 1, every Jacobian row of an
atom outside the feature's tuple is exactly zero, and at order 2 every Hessian
block with either atom outside the tuple is exactly zero, for all three
coordinate families. -/
theorem sparsity_off_tuple_zero :
    (∀ (xyz : List Vec3) (idx : List (ℤ × ℤ)) (dv : ℤ) (out : EvalOut) (f : ℕ)
        (m n a b : ℤ), bond_lengths xyz idx dv = .ok out → f < idx.length →
        idx.getD f (0, 0) = (m, n) →
        (1 ≤ dv → a ≠ m → a ≠ n → jacAt (.ok out) f a = 0) ∧
        (dv = 2 → ((a ≠ m ∧ a ≠ n) ∨ (b ≠ m ∧ b ≠ n)) → hessAt (.ok out) f a b = 0)) ∧
    (∀ (xyz : List Vec3) (idx : List (ℤ × ℤ × ℤ)) (dv : ℤ) (out : EvalOut) (f : ℕ)
        (m o n a b : ℤ), bond_angles xyz idx dv = .ok out → f < idx.length →
        idx.getD f (0, 0, 0) = (m, o, n) →
        (1 ≤ dv → a ≠ m → a ≠ o → a ≠ n → jacAt (.ok out) f a = 0) ∧
        (dv = 2 → ((a ≠ m ∧ a ≠ o ∧ a ≠ n) ∨ (b ≠ m ∧ b ≠ o ∧ b ≠ n)) →
          hessAt (.ok out) f a b = 0)) ∧
    (∀ (xyz : List Vec3) (idx : List (ℤ × ℤ × ℤ × ℤ)) (dv : ℤ) (out : EvalOut) (f : ℕ)
        (m o p n a b : ℤ), dihedral_angles xyz idx dv = .ok out → f < idx.length →
        idx.getD f (0, 0, 0, 0) = (m, o, p, n) →
        (1 ≤ dv → a ≠ m → a ≠ o → a ≠ p → a ≠ n → jacAt (.ok out) f a = 0) ∧
        (dv = 2 → ((a ≠ m ∧ a ≠ o ∧ a ≠ p ∧ a ≠ n) ∨ (b ≠ m ∧ b ≠ o ∧ b ≠ p ∧ b ≠ n)) →
          hessAt (.ok out) f a b = 0)) := by
  refine ⟨?_, ?_, ?_⟩
  · intro xyz idx dv out f m n a b h hf ht
    obtain ⟨fo, hfeat, _, hjac, hhess⟩ := bond_lengths_featureAt h hf
    rw [ht] at hfeat
    constructor
    · intro hdv ham han
      rw [hjac hdv]
      exact bondFeature_jac_off hfeat ham han
    · intro h2 hoff
      rw [hhess h2]
      exact bondFeature_hess_off hfeat h2 hoff
  · intro xyz idx dv out f m o n a b h hf ht
    obtain ⟨fo, hfeat, _, hjac, hhess⟩ := bond_angles_featureAt h hf
    rw [ht] at hfeat
    constructor
    · intro hdv ham hao han
      rw [hjac hdv]
      exact angleFeature_jac_off hfeat ham hao han
    · intro h2 hoff
      rw [hhess h2]
      exact angleFeature_hess_off hfeat h2 hoff
  · intro xyz idx dv out f m o p n a b h hf ht
    obtain ⟨fo, hfeat, _, hjac, hhess⟩ := dihedral_angles_featureAt h hf
    rw [ht] at hfeat
    constructor
    · intro hdv ham hao hap han
      rw [hjac hdv]
      exact dihedralFeature_jac_off hfeat ham hao hap han
    · intro h2 hoff
      rw [hhess h2]
      exact dihedralFeature_hess_off hfeat h2 hoff

theorem sparsity_off_tuple_zero_witness :
    ∃ outB outA outD : EvalOut,
      bond_lengths exFrame3 [(0, 1)] 2 = .ok outB ∧
      jacAt (.ok outB) 0 2 = 0 ∧ hessAt (.ok outB) 0 2 0 = 0 ∧
      bond_angles exFrame3b [(0, 1, 2)] 2 = .ok outA ∧
      jacAt (.ok outA) 0 3 = 0 ∧ hessAt (.ok outA) 0 3 1 = 0 ∧
      dihedral_angles exFrame5 [(0, 1, 2, 3)] 2 = .ok outD ∧
      jacAt (.ok outD) 0 4 = 0 ∧ hessAt (.ok outD) 0 4 0 = 0 := by
  obtain ⟨fo, hfo⟩ := exFrame3b_angle_ok 2
  have hA := bond_angles_single (by norm_num) hfo
  refine ⟨_, _, _, rfl, ?_, ?_, hA, ?_, ?_, rfl, ?_, ?_⟩
  · exact (sparsity_off_tuple_zero.1 exFrame3 [(0, 1)] 2 _ 0 0 1 2 0 rfl (by norm_num)
      rfl).1 (by norm_num) (by decide) (by decide)
  · exact (sparsity_off_tuple_zero.1 exFrame3 [(0, 1)] 2 _ 0 0 1 2 0 rfl (by norm_num)
      rfl).2 rfl (Or.inl ⟨by decide, by decide⟩)
  · exact (sparsity_off_tuple_zero.2.1 exFrame3b [(0, 1, 2)] 2 _ 0 0 1 2 3 1 hA
      (by norm_num) rfl).1 (by norm_num) (by decide) (by decide) (by decide)
  · exact (sparsity_off_tuple_zero.2.1 exFrame3b [(0, 1, 2)] 2 _ 0 0 1 2 3 1 hA
      (by norm_num) rfl).2 rfl (Or.inl ⟨by decide, by decide, by decide⟩)
  · exact (sparsity_off_tuple_zero.2.2 exFrame5 [(0, 1, 2, 3)] 2 _ 0 0 1 2 3 4 0 rfl
      (by norm_num) rfl).1 (by norm_num) (by decide) (by decide) (by decide) (by decide)
  · exact (sparsity_off_tuple_zero.2.2 exFrame5 [(0, 1, 2, 3)] 2 _ 0 0 1 2 3 4 0 rfl
      (by norm_num) rfl).2 rfl (Or.inl ⟨by decide, by decide, by decide, by decide⟩)

/-- Claim C5 counterexample: for two coincident atoms the bond-length
evaluator does not fail at any order at which the gradient is requested — the
call succeeds (no `DegenerateGeometry` or any other error), contradicting the
claim that it must fail. -/
theorem bond_coincident_no_error_cex :
    isOk (bond_lengths exFrameC [(0, 1)] 1) ∧ isOk (bond_lengths exFrameC [(0, 1)] 2) :=
  ⟨⟨_, rfl⟩, ⟨_, rfl⟩⟩

/-- Claim C5 (amended): the bond-length evaluator performs no coincident-atom
check: on a pair whose positions coincide it returns normally at every
derivative order, with value 0 (the division by the zero norm silently
produces meaningless derivative entries — NaN in IEEE arithmetic — rather
than raising `DegenerateGeometry`). -/
theorem bond_coincident_succeeds {xyz : List Vec3} {m n dv : ℤ} {xm xn : Vec3}
    (hdv : dv = 0 ∨ dv = 1 ∨ dv = 2)
    (hm : getRow xyz m = .ok xm) (hn : getRow xyz n = .ok xn) (hco : xm = xn) :
    isOk (bond_lengths xyz [(m, n)] dv) ∧ valAt (bond_lengths xyz [(m, n)] dv) 0 = 0 := by
  have hfeat : ∃ fo, bondFeature xyz dv m n = .ok fo ∧ fo.value = norm3 (xm - xn) := by
    unfold bondFeature
    rw [hm, hn]
    simp only [bind_ok]
    by_cases h1 : 1 ≤ dv
    · rw [if_pos h1]
      by_cases h2 : dv = 2
      · rw [if_pos h2]; exact ⟨_, rfl, rfl⟩
      · rw [if_neg h2]; exact ⟨_, rfl, rfl⟩
    · rw [if_neg h1]; exact ⟨_, rfl, rfl⟩
  obtain ⟨fo, hfo, hval⟩ := hfeat
  have hE := bond_lengths_single hdv hfo
  refine ⟨⟨_, hE⟩, ?_⟩
  rw [hE]
  show ([fo.value] : List ℝ).getD 0 0 = 0
  simp only [List.getD_cons_zero]
  rw [hval, hco, sub_self]
  rw [norm3_of_sum _ 0 (by simp), Real.sqrt_zero]

theorem bond_coincident_succeeds_witness :
    isOk (bond_lengths exFrameC [(0, 1)] 1) ∧
    valAt (bond_lengths exFrameC [(0, 1)] 1) 0 = 0 :=
  bond_coincident_succeeds (Or.inr (Or.inl rfl)) rfl rfl rfl

/-- Claim C6 counterexample: atom indices are not range-checked: with two
atoms, the negative index -1 is silently interpreted Python-style as row 1 and
the call returns output (the claim says any index outside `[0, n_atoms)` must
fail with `InvalidArgument`). -/
theorem negative_index_accepted_cex :
    isOk (bond_lengths exFrame2 [(-1, 0)] 0) ∧
    valAt (bond_lengths exFrame2 [(-1, 0)] 0) 0 = norm3 (mk3 1 0 0 - mk3 0 0 0) :=
  ⟨⟨_, rfl⟩, rfl⟩

theorem getRow_oob {xyz : List Vec3} {m : ℤ}
    (h : (xyz.length : ℤ) ≤ m ∨ m + (xyz.length : ℤ) < 0) :
    getRow xyz m = .error .indexError := by
  rcases h with h | h
  · exact getRow_oob_high h
  · exact getRow_oob_low h

theorem bondFeature_row_error {xyz : List Vec3} {dv m n : ℤ} {e : Err}
    (hm : getRow xyz m = .error e) : bondFeature xyz dv m n = .error e := by
  unfold bondFeature
  rw [hm]
  rfl

theorem angleFeature_row_error {xyz : List Vec3} {dv m o n : ℤ} {e : Err}
    (hm : getRow xyz m = .error e) : angleFeature xyz dv m o n = .error e := by
  unfold angleFeature
  rw [hm]
  rfl

theorem dihedralFeature_row_error {xyz : List Vec3} {dv m o p n : ℤ} {e : Err}
    (hm : getRow xyz m = .error e) : dihedralFeature xyz dv m o p n = .error e := by
  unfold dihedralFeature
  rw [hm]
  rfl

theorem bond_lengths_single_error {xyz : List Vec3} {m n dv : ℤ} {e : Err}
    (hdv : dv = 0 ∨ dv = 1 ∨ dv = 2)
    (hfeat : bondFeature xyz dv m n = .error e) :
    bond_lengths xyz [(m, n)] dv = .error e := by
  unfold bond_lengths
  rw [if_neg (not_not_intro hdv)]
  simp only [bind_ok]
  rw [List.mapM_cons, List.mapM_nil]
  simp [hfeat]

theorem dihedral_angles_single_error {xyz : List Vec3} {m o p n dv : ℤ} {e : Err}
    (hdv : dv = 0 ∨ dv = 1 ∨ dv = 2)
    (hfeat : dihedralFeature xyz dv m o p n = .error e) :
    dihedral_angles xyz [(m, o, p, n)] dv = .error e := by
  unfold dihedral_angles
  rw [if_neg (not_not_intro hdv)]
  simp only [bind_ok]
  rw [List.mapM_cons, List.mapM_nil]
  simp [hfeat]

theorem bondFeature_ok_of_rows {xyz : List Vec3} {dv m n : ℤ} {xm xn : Vec3}
    (hm : getRow xyz m = .ok xm) (hn : getRow xyz n = .ok xn) :
    ∃ fo, bondFeature xyz dv m n = .ok fo ∧ fo.value = norm3 (xm - xn) := by
  unfold bondFeature
  rw [hm, hn]
  simp only [bind_ok]
  by_cases hd1 : 1 ≤ dv
  · rw [if_pos hd1]
    by_cases hd2 : dv = 2
    · rw [if_pos hd2]; exact ⟨_, rfl, rfl⟩
    · rw [if_neg hd2]; exact ⟨_, rfl, rfl⟩
  · rw [if_neg hd1]; exact ⟨_, rfl, rfl⟩

theorem bondFeature_zero_wrap {xyz : List Vec3} {m : ℤ} (n : ℤ) (h2 : m < 0)
    (h1 : -(xyz.length : ℤ) ≤ m) :
    bondFeature xyz 0 m n = bondFeature xyz 0 (m + xyz.length) n := by
  unfold bondFeature
  rw [getRow_wrap h2 h1]
  apply congrArg
  funext xm
  apply congrArg
  funext xn
  rw [if_neg (by norm_num : ¬ (1:ℤ) ≤ 0), if_neg (by norm_num : ¬ (1:ℤ) ≤ 0)]

theorem angleFeature_zero_wrap {xyz : List Vec3} {m : ℤ} (o n : ℤ) (h2 : m < 0)
    (h1 : -(xyz.length : ℤ) ≤ m) :
    angleFeature xyz 0 m o n = angleFeature xyz 0 (m + xyz.length) o n := by
  unfold angleFeature
  rw [getRow_wrap h2 h1]
  apply congrArg
  funext xm
  apply congrArg
  funext xo
  apply congrArg
  funext xn
  rw [if_neg (by norm_num : ¬ (1:ℤ) ≤ 0), if_neg (by norm_num : ¬ (1:ℤ) ≤ 0)]

theorem dihedralFeature_zero_wrap {xyz : List Vec3} {m : ℤ} (o p n : ℤ) (h2 : m < 0)
    (h1 : -(xyz.length : ℤ) ≤ m) :
    dihedralFeature xyz 0 m o p n = dihedralFeature xyz 0 (m + xyz.length) o p n := by
  unfold dihedralFeature
  rw [getRow_wrap h2 h1]
  apply congrArg
  funext xm
  apply congrArg
  funext xo
  apply congrArg
  funext xp
  apply congrArg
  funext xn
  rw [if_neg (by norm_num : ¬ (1:ℤ) ≤ 0), if_neg (by norm_num : ¬ (1:ℤ) ≤ 0)]

theorem getRow_neg_ok {xyz : List Vec3} {m : ℤ} (h2 : m < 0)
    (h1 : -(xyz.length : ℤ) ≤ m) :
    getRow xyz (m + xyz.length) =
      .ok (xyz.get ⟨(m + (xyz.length : ℤ)).toNat, by omega⟩) :=
  getRow_ok (by omega) (by omega)

/-- Claim C6 (amended): no evaluator checks atom-index ranges up front, and
row access has the Python/numpy semantics for all three evaluators: a tuple
first index outside `[-n_atoms, n_atoms)` makes `bond_lengths`, `bond_angles`
and `dihedral_angles` fail with an `IndexError` from the row access (not
`InvalidArgument`) at every derivative order in {0,1,2}; a negative index `m`
with `-n_atoms ≤ m < 0` is silently interpreted as row `m + n_atoms`: at
order 0 each evaluator returns a result identical to the call with
`m + n_atoms`, and `bond_lengths` succeeds at every order with the same
values as the wrapped call. -/
theorem index_wraparound_and_index_error :
    (∀ (xyz : List Vec3) (m n dv : ℤ), (dv = 0 ∨ dv = 1 ∨ dv = 2) →
      ((xyz.length : ℤ) ≤ m ∨ m + (xyz.length : ℤ) < 0) →
      bond_lengths xyz [(m, n)] dv = .error .indexError) ∧
    (∀ (xyz : List Vec3) (m o n dv : ℤ), (dv = 0 ∨ dv = 1 ∨ dv = 2) →
      ((xyz.length : ℤ) ≤ m ∨ m + (xyz.length : ℤ) < 0) →
      bond_angles xyz [(m, o, n)] dv = .error .indexError) ∧
    (∀ (xyz : List Vec3) (m o p n dv : ℤ), (dv = 0 ∨ dv = 1 ∨ dv = 2) →
      ((xyz.length : ℤ) ≤ m ∨ m + (xyz.length : ℤ) < 0) →
      dihedral_angles xyz [(m, o, p, n)] dv = .error .indexError) ∧
    (∀ (xyz : List Vec3) (m n : ℤ), -(xyz.length : ℤ) ≤ m → m < 0 →
      bond_lengths xyz [(m, n)] 0 = bond_lengths xyz [(m + xyz.length, n)] 0) ∧
    (∀ (xyz : List Vec3) (m o n : ℤ), -(xyz.length : ℤ) ≤ m → m < 0 →
      bond_angles xyz [(m, o, n)] 0 = bond_angles xyz [(m + xyz.length, o, n)] 0) ∧
    (∀ (xyz : List Vec3) (m o p n : ℤ), -(xyz.length : ℤ) ≤ m → m < 0 →
      dihedral_angles xyz [(m, o, p, n)] 0 =
        dihedral_angles xyz [(m + xyz.length, o, p, n)] 0) ∧
    (∀ (xyz : List Vec3) (m n dv : ℤ) (xn : Vec3), (dv = 0 ∨ dv = 1 ∨ dv = 2) →
      -(xyz.length : ℤ) ≤ m → m < 0 → getRow xyz n = .ok xn →
      ∃ out out', bond_lengths xyz [(m, n)] dv = .ok out ∧
        bond_lengths xyz [(m + xyz.length, n)] dv = .ok out' ∧
        out.values = out'.values) := by
  refine ⟨?_, ?_, ?_, ?_, ?_, ?_, ?_⟩
  · intro xyz m n dv hdv hm
    exact bond_lengths_single_error hdv (bondFeature_row_error (getRow_oob hm))
  · intro xyz m o n dv hdv hm
    exact bond_angles_single_error hdv (angleFeature_row_error (getRow_oob hm))
  · intro xyz m o p n dv hdv hm
    exact dihedral_angles_single_error hdv (dihedralFeature_row_error (getRow_oob hm))
  · intro xyz m n h1 h2
    have hfeat := bondFeature_zero_wrap n h2 h1
    unfold bond_lengths
    rw [mapM_singleton, mapM_singleton]
    simp only []
    rw [show bondFeature xyz 0 ((m, n) : ℤ × ℤ).1 ((m, n) : ℤ × ℤ).2
        = bondFeature xyz 0 (m + xyz.length) n from hfeat]
  · intro xyz m o n h1 h2
    have hfeat := angleFeature_zero_wrap o n h2 h1
    unfold bond_angles
    rw [mapM_singleton, mapM_singleton]
    simp only []
    rw [show angleFeature xyz 0 ((m, o, n) : ℤ × ℤ × ℤ).1 ((m, o, n) : ℤ × ℤ × ℤ).2.1
        ((m, o, n) : ℤ × ℤ × ℤ).2.2 = angleFeature xyz 0 (m + xyz.length) o n from hfeat]
  · intro xyz m o p n h1 h2
    have hfeat := dihedralFeature_zero_wrap o p n h2 h1
    unfold dihedral_angles
    rw [mapM_singleton, mapM_singleton]
    simp only []
    rw [show dihedralFeature xyz 0 ((m, o, p, n) : ℤ × ℤ × ℤ × ℤ).1
        ((m, o, p, n) : ℤ × ℤ × ℤ × ℤ).2.1 ((m, o, p, n) : ℤ × ℤ × ℤ × ℤ).2.2.1
        ((m, o, p, n) : ℤ × ℤ × ℤ × ℤ).2.2.2
        = dihedralFeature xyz 0 (m + xyz.length) o p n from hfeat]
  · intro xyz m n dv xn hdv h1 h2 hn
    have hok := getRow_neg_ok h2 h1
    have hokm : getRow xyz m = .ok (xyz.get ⟨(m + (xyz.length : ℤ)).toNat, by omega⟩) := by
      rw [getRow_wrap h2 h1]
      exact hok
    obtain ⟨fo, hfo, hval⟩ := bondFeature_ok_of_rows hokm hn
    obtain ⟨fo', hfo', hval'⟩ := bondFeature_ok_of_rows hok hn
    exact ⟨_, _, bond_lengths_single hdv hfo, bond_lengths_single hdv hfo',
      by simp [hval, hval']⟩

theorem index_wraparound_and_index_error_witness :
    bond_lengths exFrame2 [(5, 0)] 1 = .error .indexError ∧
    bond_lengths exFrame2 [(-7, 0)] 2 = .error .indexError ∧
    bond_angles exFrame3 [(5, 0, 1)] 2 = .error .indexError ∧
    dihedral_angles exFrame4 [(9, 0, 1, 2)] 2 = .error .indexError ∧
    bond_lengths exFrame2 [(-1, 0)] 0 =
      bond_lengths exFrame2 [(-1 + (exFrame2.length : ℤ), 0)] 0 ∧
    bond_angles exFrame3 [(-1, 0, 1)] 0 =
      bond_angles exFrame3 [(-1 + (exFrame3.length : ℤ), 0, 1)] 0 ∧
    dihedral_angles exFrame4 [(-1, 0, 1, 2)] 0 =
      dihedral_angles exFrame4 [(-1 + (exFrame4.length : ℤ), 0, 1, 2)] 0 ∧
    (∃ out out', bond_lengths exFrame2 [(-1, 0)] 2 = .ok out ∧
      bond_lengths exFrame2 [(-1 + (exFrame2.length : ℤ), 0)] 2 = .ok out' ∧
      out.values = out'.values) :=
  ⟨index_wraparound_and_index_error.1 exFrame2 5 0 1 (Or.inr (Or.inl rfl))
      (Or.inl (by norm_num [exFrame2])),
   index_wraparound_and_index_error.1 exFrame2 (-7) 0 2 (Or.inr (Or.inr rfl))
      (Or.inr (by norm_num [exFrame2])),
   index_wraparound_and_index_error.2.1 exFrame3 5 0 1 2 (Or.inr (Or.inr rfl))
      (Or.inl (by norm_num [exFrame3])),
   index_wraparound_and_index_error.2.2.1 exFrame4 9 0 1 2 2 (Or.inr (Or.inr rfl))
      (Or.inl (by norm_num [exFrame4])),
   index_wraparound_and_index_error.2.2.2.1 exFrame2 (-1) 0
      (by norm_num [exFrame2]) (by norm_num),
   index_wraparound_and_index_error.2.2.2.2.1 exFrame3 (-1) 0 1
      (by norm_num [exFrame3]) (by norm_num),
   index_wraparound_and_index_error.2.2.2.2.2.1 exFrame4 (-1) 0 1 2
      (by norm_num [exFrame4]) (by norm_num),
   index_wraparound_and_index_error.2.2.2.2.2.2 exFrame2 (-1) 0 2 (mk3 0 0 0)
      (Or.inr (Or.inr rfl)) (by norm_num [exFrame2]) (by norm_num) rfl⟩

theorem dot3_sdiv (a b : Vec3) (c d : ℝ) :
    dot3 (sdiv a c) (sdiv b d) = dot3 a b / (c * d) := by
  unfold dot3 sdiv
  ring

theorem dot3_self (v : Vec3) : dot3 v v = norm3 v * norm3 v := (sq_norm3 v).symm

theorem norm3_sdiv_self {w : Vec3} (h : norm3 w ≠ 0) :
    norm3 (sdiv w (norm3 w)) = 1 := by
  rw [norm3_of_sum _ 1 ?_, Real.sqrt_one]
  have hsq : w 0 * w 0 + w 1 * w 1 + w 2 * w 2 = norm3 w * norm3 w := (sq_norm3 w).symm
  unfold sdiv
  field_simp
  linarith [hsq]

theorem dot3_neg_right (a b : Vec3) : dot3 a (-b) = -(dot3 a b) := by
  simp [dot3, Pi.neg_apply]
  ring

/-- Claim C4: for every angle triple whose two normalised bond vectors `u`,
`v` satisfy `|u+v| < 1e-10` or `|u-v| < 1e-10`, the bond-angle evaluator at
order ≥ 1 fails with `DegenerateGeometry`, while order 0 on the same input
succeeds and returns the `acos` value — which is 0 or pi whenever the
triple is exactly collinear (non-coincident atoms, `u + v = 0` or
`u - v = 0`). -/
theorem angle_degenerate_rejection {xyz : List Vec3} {m o n : ℤ} {xm xo xn : Vec3}
    (hm : getRow xyz m = .ok xm) (ho : getRow xyz o = .ok xo)
    (hn : getRow xyz n = .ok xn)
    (hdeg : norm3 (sdiv (xm - xo) (norm3 (xm - xo)) + sdiv (xn - xo) (norm3 (xn - xo))) < 1e-10 ∨
            norm3 (sdiv (xm - xo) (norm3 (xm - xo)) - sdiv (xn - xo) (norm3 (xn - xo))) < 1e-10) :
    bond_angles xyz [(m, o, n)] 1 = .error .degenerateGeometry ∧
    bond_angles xyz [(m, o, n)] 2 = .error .degenerateGeometry ∧
    bond_angles xyz [(m, o, n)] 0 = .ok
      ⟨[Real.arccos (dot3 (xm - xo) (xn - xo) / (norm3 (xm - xo) * norm3 (xn - xo)))],
        none, none⟩ ∧
    (norm3 (xm - xo) ≠ 0 → norm3 (xn - xo) ≠ 0 →
      (sdiv (xm - xo) (norm3 (xm - xo)) + sdiv (xn - xo) (norm3 (xn - xo)) = 0 ∨
       sdiv (xm - xo) (norm3 (xm - xo)) - sdiv (xn - xo) (norm3 (xn - xo)) = 0) →
      Real.arccos (dot3 (xm - xo) (xn - xo) / (norm3 (xm - xo) * norm3 (xn - xo))) = 0 ∨
      Real.arccos (dot3 (xm - xo) (xn - xo) / (norm3 (xm - xo) * norm3 (xn - xo))) = Real.pi) := by
  refine ⟨?_, ?_, ?_, ?_⟩
  · exact bond_angles_single_error (Or.inr (Or.inl rfl))
      (angleFeature_degenerate hm ho hn (by norm_num) hdeg)
  · exact bond_angles_single_error (Or.inr (Or.inr rfl))
      (angleFeature_degenerate hm ho hn (by norm_num) hdeg)
  · have h0 := bond_angles_single (Or.inl rfl) (angleFeature_zero hm ho hn)
    simpa using h0
  · intro hu hv hcol
    have hdotids : dot3 (xm - xo) (xn - xo) / (norm3 (xm - xo) * norm3 (xn - xo))
        = dot3 (sdiv (xm - xo) (norm3 (xm - xo))) (sdiv (xn - xo) (norm3 (xn - xo))) := by
      rw [dot3_sdiv]
    have hself : dot3 (sdiv (xm - xo) (norm3 (xm - xo))) (sdiv (xm - xo) (norm3 (xm - xo))) = 1 := by
      rw [dot3_self, norm3_sdiv_self hu]
      norm_num
    rcases hcol with hc | hc
    · right
      have hveq : sdiv (xn - xo) (norm3 (xn - xo)) = -(sdiv (xm - xo) (norm3 (xm - xo))) :=
        eq_neg_of_add_eq_zero_right hc
      rw [hdotids, hveq, dot3_neg_right, hself]
      exact Real.arccos_neg_one
    · left
      have hveq : sdiv (xn - xo) (norm3 (xn - xo)) = sdiv (xm - xo) (norm3 (xm - xo)) :=
        (sub_eq_zero.1 hc).symm
      rw [hdotids, hveq, hself]
      exact Real.arccos_one

theorem angle_degenerate_rejection_witness :
    bond_angles exFrame3L [(0, 1, 2)] 1 = .error .degenerateGeometry ∧
    bond_angles exFrame3L [(0, 1, 2)] 2 = .error .degenerateGeometry ∧
    (valAt (bond_angles exFrame3L [(0, 1, 2)] 0) 0 = 0 ∨
     valAt (bond_angles exFrame3L [(0, 1, 2)] 0) 0 = Real.pi) := by
  have e1 : norm3 (mk3 0 0 0 - mk3 1 0 0) = 1 := by
    rw [norm3_of_sum _ 1 (by norm_num [Pi.sub_apply]), Real.sqrt_one]
  have e2 : norm3 (mk3 2 0 0 - mk3 1 0 0) = 1 := by
    rw [norm3_of_sum _ 1 (by norm_num [Pi.sub_apply]), Real.sqrt_one]
  have hsum : sdiv (mk3 0 0 0 - mk3 1 0 0) (norm3 (mk3 0 0 0 - mk3 1 0 0)) +
      sdiv (mk3 2 0 0 - mk3 1 0 0) (norm3 (mk3 2 0 0 - mk3 1 0 0)) = 0 := by
    rw [e1, e2, sdiv_one, sdiv_one]
    refine vec3_ext ?_ ?_ ?_ <;>
      norm_num [Pi.add_apply, Pi.sub_apply, Pi.zero_apply]
  have hdeg : norm3 (sdiv (mk3 0 0 0 - mk3 1 0 0) (norm3 (mk3 0 0 0 - mk3 1 0 0)) +
      sdiv (mk3 2 0 0 - mk3 1 0 0) (norm3 (mk3 2 0 0 - mk3 1 0 0))) < 1e-10 ∨
      norm3 (sdiv (mk3 0 0 0 - mk3 1 0 0) (norm3 (mk3 0 0 0 - mk3 1 0 0)) -
      sdiv (mk3 2 0 0 - mk3 1 0 0) (norm3 (mk3 2 0 0 - mk3 1 0 0))) < 1e-10 := by
    left
    rw [hsum, norm3_of_sum _ 0 (by simp), Real.sqrt_zero]
    norm_num
  have key := @angle_degenerate_rejection exFrame3L 0 1 2 (mk3 0 0 0) (mk3 1 0 0)
    (mk3 2 0 0) rfl rfl rfl hdeg
  refine ⟨key.1, key.2.1, ?_⟩
  have hval := key.2.2.2 (by rw [e1]; norm_num) (by rw [e2]; norm_num) (Or.inl hsum)
  rw [key.2.2.1]
  simp only [valAt, List.getD_cons_zero]
  exact hval

/-- Claim C8: for a bond pair `(m,n)` of distinct non-coincident atoms at
order 2, the Hessian block at `[m,:,n,:]` equals `(outer(u-hat,u-hat) - I)/|u|`,
the block at `[n,:,m,:]` equals the same matrix, and the diagonal blocks
`[m,:,m,:]` and `[n,:,n,:]` equal its negation. -/
theorem bond_hessian_blocks {xyz : List Vec3} {idx : List (ℤ × ℤ)} {out : EvalOut}
    {f : ℕ} {m n : ℤ} {xm xn : Vec3} (h : bond_lengths xyz idx 2 = .ok out)
    (hf : f < idx.length) (ht : idx.getD f (0, 0) = (m, n)) (hmn : m ≠ n)
    (hm : getRow xyz m = .ok xm) (hn : getRow xyz n = .ok xn) (hco : xm ≠ xn)
    (i j : Fin 3) :
    hessAt (.ok out) f m n i j =
      (sdiv (xm - xn) (norm3 (xm - xn)) i * sdiv (xm - xn) (norm3 (xm - xn)) j -
        (if i = j then 1 else 0)) / norm3 (xm - xn) ∧
    hessAt (.ok out) f n m i j =
      (sdiv (xm - xn) (norm3 (xm - xn)) i * sdiv (xm - xn) (norm3 (xm - xn)) j -
        (if i = j then 1 else 0)) / norm3 (xm - xn) ∧
    hessAt (.ok out) f m m i j =
      -((sdiv (xm - xn) (norm3 (xm - xn)) i * sdiv (xm - xn) (norm3 (xm - xn)) j -
        (if i = j then 1 else 0)) / norm3 (xm - xn)) ∧
    hessAt (.ok out) f n n i j =
      -((sdiv (xm - xn) (norm3 (xm - xn)) i * sdiv (xm - xn) (norm3 (xm - xn)) j -
        (if i = j then 1 else 0)) / norm3 (xm - xn)) := by
  obtain ⟨fo, hfeat, _, _, hhess⟩ := bond_lengths_featureAt h hf
  rw [ht] at hfeat
  rw [bondFeature_two hm hn] at hfeat
  injection hfeat with hfo
  rw [hhess rfl, ← hfo]
  simp only [FeatOut.hess, Option.getD_some]
  refine ⟨?_, ?_, ?_, ?_⟩ <;>
    simp [updBlk_apply, hmn, Ne.symm hmn, mdiv, outer3_minus_eye, Pi.neg_apply]

theorem bond_hessian_blocks_witness :
    ∃ out, bond_lengths exFrame2 [(0, 1)] 2 = .ok out ∧
      hessAt (.ok out) 0 0 1 0 1 =
        (sdiv (mk3 0 0 0 - mk3 1 0 0) (norm3 (mk3 0 0 0 - mk3 1 0 0)) 0 *
          sdiv (mk3 0 0 0 - mk3 1 0 0) (norm3 (mk3 0 0 0 - mk3 1 0 0)) 1 -
          (if (0 : Fin 3) = 1 then 1 else 0)) / norm3 (mk3 0 0 0 - mk3 1 0 0) := by
  obtain ⟨out, hout⟩ : isOk (bond_lengths exFrame2 [(0, 1)] 2) := ⟨_, rfl⟩
  have hco : (mk3 0 0 0 : Vec3) ≠ mk3 1 0 0 := by
    intro hc
    have h0 := congrFun hc 0
    simp at h0
  exact ⟨out, hout, (@bond_hessian_blocks exFrame2 [(0, 1)] out 0 0 1 (mk3 0 0 0)
    (mk3 1 0 0) hout (by norm_num) rfl (by decide) rfl rfl hco 0 1).1⟩

/-- Claim C1 (amended): the order-2 Hessians of `bond_lengths` and
`bond_angles` satisfy `Hessian[f,a,i,b,j] = Hessian[f,b,j,a,i]` for every
feature tuple of distinct in-range atoms; the dihedral evaluator violates this
identity (see the counterexample), so it is excluded. -/
theorem hessian_block_symmetry_bonds_angles :
    (∀ (xyz : List Vec3) (idx : List (ℤ × ℤ)) (out : EvalOut) (f : ℕ) (m n a b : ℤ)
        (i j : Fin 3), bond_lengths xyz idx 2 = .ok out → f < idx.length →
        idx.getD f (0, 0) = (m, n) → m ≠ n →
        hessAt (.ok out) f a b i j = hessAt (.ok out) f b a j i) ∧
    (∀ (xyz : List Vec3) (idx : List (ℤ × ℤ × ℤ)) (out : EvalOut) (f : ℕ)
        (m o n a b : ℤ) (i j : Fin 3), bond_angles xyz idx 2 = .ok out →
        f < idx.length → idx.getD f (0, 0, 0) = (m, o, n) →
        m ≠ o → m ≠ n → n ≠ o →
        hessAt (.ok out) f a b i j = hessAt (.ok out) f b a j i) := by
  constructor
  · intro xyz idx out f m n a b i j h hf ht hmn
    obtain ⟨fo, hfeat, _, _, hhess⟩ := bond_lengths_featureAt h hf
    rw [ht] at hfeat
    obtain ⟨xm, xn, hm, hn, _⟩ := bondFeature_ok_value hfeat
    rw [bondFeature_two hm hn] at hfeat
    injection hfeat with hfo
    rw [hhess rfl, ← hfo]
    simp only [FeatOut.hess, Option.getD_some]
    refine bondHessChain_symm ?_ hmn a b i j
    intro i j
    simp only [mdiv, outer3_minus_eye]
    by_cases hij : i = j
    · subst hij; ring
    · rw [if_neg hij, if_neg (Ne.symm hij)]; ring
  · intro xyz idx out f m o n a b i j h hf ht hmo hmn hno
    obtain ⟨fo, hfeat, _, _, hhess⟩ := bond_angles_featureAt h hf
    rw [ht] at hfeat
    rw [hhess rfl]
    exact angleFeature_hess_symm hfeat rfl hmo hmn hno a b i j

theorem hessian_block_symmetry_bonds_angles_witness :
    ∃ outB outA : EvalOut,
      bond_lengths exFrame2 [(0, 1)] 2 = .ok outB ∧
      hessAt (.ok outB) 0 0 1 0 1 = hessAt (.ok outB) 0 1 0 1 0 ∧
      bond_angles exFrame3 [(0, 1, 2)] 2 = .ok outA ∧
      hessAt (.ok outA) 0 0 1 1 2 = hessAt (.ok outA) 0 1 0 2 1 := by
  obtain ⟨fo, hfo⟩ := exFrame3_angle_ok 2
  have hA := bond_angles_single (by norm_num) hfo
  refine ⟨_, _, rfl, ?_, hA, ?_⟩
  · exact hessian_block_symmetry_bonds_angles.1 exFrame2 [(0, 1)] _ 0 0 1 0 1 0 1 rfl
      (by norm_num) rfl (by decide)
  · exact hessian_block_symmetry_bonds_angles.2 exFrame3 [(0, 1, 2)] _ 0 0 1 2 0 1 1 2
      hA (by norm_num) rfl (by decide) (by decide) (by decide)

set_option maxHeartbeats 2000000 in
/-- Claim C1 counterexample: the dihedral Hessian violates the claimed
symmetry. At the frame `m=(1,0,0), o=(0,0,0), p=(0,0,1), n=(0,1,1)` with
tuple `(0,1,2,3)`, the entry `Hessian[0, m,1, o,2]` is `0` while
`Hessian[0, o,2, m,1]` is `-1` (the `m7`/`m8` contributions, both taken from
`ht7`, land asymmetrically). -/
theorem dihedral_hessian_asymmetry_cex :
    hessAt (dihedral_angles exFrame4 [(0, 1, 2, 3)] 2) 0 0 1 1 2 ≠
    hessAt (dihedral_angles exFrame4 [(0, 1, 2, 3)] 2) 0 1 0 2 1 := by
  obtain ⟨fo, hfeat⟩ : ∃ fo, dihedralFeature exFrame4 2 0 1 2 3 = .ok fo := ⟨_, rfl⟩
  have hE := dihedral_angles_single (Or.inr (Or.inr rfl)) hfeat
  rw [hE]
  have hsel : ∀ hs : Option (List (ℤ → ℤ → Mat3)), ∀ vs js,
      hessAt (.ok (⟨vs, js, hs⟩ : EvalOut)) 0 = (hs.getD []).getD 0 (fun _ _ => 0) :=
    fun hs vs js => rfl
  rw [hsel]
  rw [if_pos rfl]
  simp only [Option.getD_some, List.getD_cons_zero]
  unfold dihedralFeature at hfeat
  rw [show getRow exFrame4 0 = .ok (mk3 1 0 0) from rfl,
      show getRow exFrame4 1 = .ok (mk3 0 0 0) from rfl,
      show getRow exFrame4 2 = .ok (mk3 0 0 1) from rfl,
      show getRow exFrame4 3 = .ok (mk3 0 1 1) from rfl] at hfeat
  simp only [bind_ok] at hfeat
  rw [if_pos (by norm_num : (1:ℤ) ≤ 2), if_true] at hfeat
  simp only [pure_eq_ok, Except.ok.injEq] at hfeat
  rw [← hfeat]
  simp only [FeatOut.hess, Option.getD_some]
  rw [dihedralHessian_apply, dihedralHessian_apply]
  rw [if_pos (by decide : ((0:ℤ), (1:ℤ)) ∈ List.product [0, 3, 1, 2] [0, 3, 1, 2]),
      if_pos (by decide : ((1:ℤ), (0:ℤ)) ∈ List.product [0, 3, 1, 2] [0, 3, 1, 2])]
  have n1 : norm3 (mk3 1 0 0 - mk3 0 0 0) = 1 := by
    rw [norm3_of_sum _ 1 (by norm_num [Pi.sub_apply]), Real.sqrt_one]
  have n2 : norm3 (mk3 0 1 1 - mk3 0 0 1) = 1 := by
    rw [norm3_of_sum _ 1 (by norm_num [Pi.sub_apply]), Real.sqrt_one]
  have n3 : norm3 (mk3 0 0 1 - mk3 0 0 0) = 1 := by
    rw [norm3_of_sum _ 1 (by norm_num [Pi.sub_apply]), Real.sqrt_one]
  rw [n1, n2, n3]
  norm_num [dihedralFactor, sign6, sign3, kron, mdiv, sym_outer3, splay3, sdiv,
    smul3, cross3, dot3, Pi.sub_apply, Pi.add_apply, Pi.neg_apply, Pi.smul_apply,
    smul_eq_mul]
  norm_num [(by decide : ¬ (2 : Fin 3) = 0), (by decide : ¬ (1 : Fin 3) = 2),
    (by decide : ¬ (2 : Fin 3) = 1)]

end

end FastInternal
